import Mathlib

/-!
# Verification of the fatrs FAT filesystem engine

Shallow embedding of the core data structures and operations of the `fatrs`
crate (cluster bitmap, FAT sector cache, file handle seek/write, transaction
log entries, file lock manager, multi-cluster contiguity detection), together
with proofs and refutations of the specification claims about them.

Machine integers are modelled as `Nat` with explicit `% 2^w` wherever the
source relies on fixed-width behaviour.  Byte sequences are `List Nat` with
every element below 256.  Fallible operations return `Option` or `Except`.
-/

set_option maxRecDepth 8192

namespace Fatrs

/-! ## Little-endian codec

Modelled from the spec: the little-endian codec component (§4.2) of the
repository lives in a module (`io.rs`) that is not part of the available
sources; it provides `write_u8`/`write_u16_le`/`write_u32_le`/`write_u64_le`
and the matching readers, standard little-endian fixed-width encodings. -/

/-- Encode `n` as `k` little-endian bytes (truncating above `256^k`). -/
def toLE : Nat → Nat → List Nat
  | 0, _ => []
  | k + 1, n => (n % 256) :: toLE k (n / 256)

/-- Read `k` little-endian bytes from the front of `bs`. -/
def takeLE : Nat → List Nat → Option (Nat × List Nat)
  | 0, bs => some (0, bs)
  | _ + 1, [] => none
  | k + 1, b :: bs => (takeLE k bs).map (fun p => (b + 256 * p.1, p.2))

/-- Read `count` little-endian values of `width` bytes each. -/
def takeLEList : Nat → Nat → List Nat → Option (List Nat × List Nat)
  | 0, _, bs => some ([], bs)
  | c + 1, k, bs =>
    match takeLE k bs with
    | none => none
    | some (n, bs₁) =>
      match takeLEList c k bs₁ with
      | none => none
      | some (ns, bs₂) => some (n :: ns, bs₂)

/-- Read `k` raw bytes from the front of `bs` (the `read_exact` model). -/
def takeBytes : Nat → List Nat → Option (List Nat × List Nat)
  | 0, bs => some ([], bs)
  | _ + 1, [] => none
  | k + 1, b :: bs => (takeBytes k bs).map (fun p => (b :: p.1, p.2))

theorem toLE_length (k n : Nat) : (toLE k n).length = k := by
  induction k generalizing n with
  | zero => rfl
  | succ k ih => simp [toLE, ih]

theorem takeLE_append (k n : Nat) (rest : List Nat) :
    takeLE k (toLE k n ++ rest) = some (n % 256 ^ k, rest) := by
  induction k generalizing n with
  | zero => simp [toLE, takeLE, Nat.mod_one]
  | succ k ih =>
    have hcons : toLE (k + 1) n ++ rest = (n % 256) :: (toLE k (n / 256) ++ rest) := rfl
    rw [hcons]
    show (takeLE k (toLE k (n / 256) ++ rest)).map
      (fun p => (n % 256 + 256 * p.1, p.2)) = some (n % 256 ^ (k + 1), rest)
    rw [ih]
    show some (n % 256 + 256 * (n / 256 % 256 ^ k), rest) = some (n % 256 ^ (k + 1), rest)
    rw [pow_succ', Nat.mod_mul]

theorem takeBytes_append (bs rest : List Nat) :
    takeBytes bs.length (bs ++ rest) = some (bs, rest) := by
  induction bs with
  | nil => simp [takeBytes]
  | cons b bs ih => simp [takeBytes, ih]

theorem takeLEList_append (k : Nat) (ns : List Nat) (rest : List Nat) :
    takeLEList ns.length k ((ns.map (toLE k)).flatten ++ rest) =
      some (ns.map (· % 256 ^ k), rest) := by
  induction ns with
  | nil => simp [takeLEList]
  | cons n ns ih =>
    simp only [List.map_cons, List.flatten, List.append_assoc, List.length_cons, takeLEList,
      takeLE_append, ih]

/-! ## Transaction log entries (`src/fatrs/src/transaction.rs`)

`TransactionEntry::serialize` / `deserialize` write and read the fields in a
fixed order through the little-endian codec.  The byte-sink/source is
modelled as a plain byte list. -/

/-- `MAX_TRANSACTIONS` from transaction.rs. -/
def MAX_TRANSACTIONS : Nat := 4

/-- `TRANSACTION_ENTRY_SIZE` from transaction.rs: declared size of each log
entry in bytes. -/
def TRANSACTION_ENTRY_SIZE : Nat := 512

/-- `TRANSACTION_MAGIC` from transaction.rs. -/
def TRANSACTION_MAGIC : Nat := 0x54584E46

/-- `TRANSACTION_VERSION` from transaction.rs. -/
def TRANSACTION_VERSION : Nat := 1

/-- `TransactionType` from transaction.rs. -/
inductive TransactionType where
  | none
  | fatUpdate
  | dirEntryUpdate
  | fsInfoUpdate
  | fileMetadataUpdate
  | clusterChainUpdate
  deriving DecidableEq, Repr

/-- The `repr(u8)` discriminant of a `TransactionType` (the `as u8` cast). -/
def TransactionType.toU8 : TransactionType → Nat
  | .none => 0
  | .fatUpdate => 1
  | .dirEntryUpdate => 2
  | .fsInfoUpdate => 3
  | .fileMetadataUpdate => 4
  | .clusterChainUpdate => 5

/-- `TransactionType::from_u8` from transaction.rs. -/
def TransactionType.fromU8 : Nat → Option TransactionType
  | 0 => some .none
  | 1 => some .fatUpdate
  | 2 => some .dirEntryUpdate
  | 3 => some .fsInfoUpdate
  | 4 => some .fileMetadataUpdate
  | 5 => some .clusterChainUpdate
  | _ => Option.none

/-- `TransactionState` from transaction.rs. -/
inductive TransactionState where
  | empty
  | pending
  | inProgress
  | committed
  deriving DecidableEq, Repr

/-- The `repr(u8)` discriminant of a `TransactionState`. -/
def TransactionState.toU8 : TransactionState → Nat
  | .empty => 0
  | .pending => 1
  | .inProgress => 2
  | .committed => 3

/-- `TransactionState::from_u8` from transaction.rs. -/
def TransactionState.fromU8 : Nat → Option TransactionState
  | 0 => some .empty
  | 1 => some .pending
  | 2 => some .inProgress
  | 3 => some .committed
  | _ => none

theorem TransactionType.fromU8_toU8_ty (t : TransactionType) :
    TransactionType.fromU8 t.toU8 = some t := by
  cases t <;> rfl

theorem TransactionState.fromU8_toU8_st (s : TransactionState) :
    TransactionState.fromU8 s.toU8 = some s := by
  cases s <;> rfl

/-- `TransactionEntry` from transaction.rs.  The `u32`/`u16`/`u64` fields are
`Nat`s; well-formedness (`TransactionEntry.WF`) records the range constraints
imposed by the Rust types. -/
structure TransactionEntry where
  magic : Nat
  version : Nat
  txType : TransactionType
  txState : TransactionState
  sequence : Nat
  timestamp : Nat
  affectedSectors : List Nat
  sectorCount : Nat
  backupData : List Nat
  crc32 : Nat
  deriving DecidableEq, Repr

/-- `TransactionEntry::new` from transaction.rs. -/
def TransactionEntry.new : TransactionEntry where
  magic := TRANSACTION_MAGIC
  version := TRANSACTION_VERSION
  txType := .none
  txState := .empty
  sequence := 0
  timestamp := 0
  affectedSectors := List.replicate 64 0
  sectorCount := 0
  backupData := List.replicate 200 0
  crc32 := 0

/-- Range and shape constraints guaranteed by the Rust field types
(`u32`, `u16`, `u64`, `[u32; 64]`, `[u8; 200]`). -/
def TransactionEntry.WF (e : TransactionEntry) : Prop :=
  e.magic < 2 ^ 32 ∧ e.version < 2 ^ 16 ∧ e.sequence < 2 ^ 32 ∧
    e.timestamp < 2 ^ 64 ∧ e.sectorCount < 2 ^ 16 ∧
    e.affectedSectors.length = 64 ∧ (∀ s ∈ e.affectedSectors, s < 2 ^ 32) ∧
    e.backupData.length = 200 ∧ e.crc32 < 2 ^ 32

instance (e : TransactionEntry) : Decidable e.WF := by
  unfold TransactionEntry.WF; infer_instance

/-- `TransactionEntry::serialize` from transaction.rs: the exact byte sequence
written to the sink (each `write_*` appends its little-endian bytes). -/
def TransactionEntry.serialize (e : TransactionEntry) : List Nat :=
  toLE 4 e.magic ++ toLE 2 e.version ++ toLE 1 e.txType.toU8 ++ toLE 1 e.txState.toU8 ++
    toLE 4 e.sequence ++ toLE 8 e.timestamp ++ toLE 2 e.sectorCount ++
    (e.affectedSectors.map (toLE 4)).flatten ++ e.backupData ++ toLE 4 e.crc32 ++
    List.replicate 22 0

/-- `TransactionEntry::deserialize` from transaction.rs: reads the fields in
serialization order; invalid type or state bytes are `CorruptedFileSystem`
(modelled as `none`). -/
def TransactionEntry.deserialize (bs : List Nat) : Option TransactionEntry :=
  (takeLE 4 bs).bind fun m =>
  (takeLE 2 m.2).bind fun v =>
  (takeLE 1 v.2).bind fun tb =>
  (TransactionType.fromU8 tb.1).bind fun txType =>
  (takeLE 1 tb.2).bind fun sb =>
  (TransactionState.fromU8 sb.1).bind fun txState =>
  (takeLE 4 sb.2).bind fun sq =>
  (takeLE 8 sq.2).bind fun ts =>
  (takeLE 2 ts.2).bind fun sc =>
  (takeLEList 64 4 sc.2).bind fun secs =>
  (takeBytes 200 secs.2).bind fun bk =>
  (takeLE 4 bk.2).bind fun crc =>
  (takeBytes 22 crc.2).bind fun _r =>
  some { magic := m.1, version := v.1, txType := txType, txState := txState,
         sequence := sq.1, timestamp := ts.1, affectedSectors := secs.1,
         sectorCount := sc.1, backupData := bk.1, crc32 := crc.1 }

theorem takeBytes_self (bs : List Nat) : takeBytes bs.length bs = some (bs, []) := by
  have h := takeBytes_append bs []
  simpa using h

theorem takeBytes_replicate (n x : Nat) :
    takeBytes n (List.replicate n x) = some (List.replicate n x, []) := by
  induction n with
  | zero => rfl
  | succ n ih => simp [List.replicate, takeBytes, ih]

theorem TransactionType.toU8_lt_ty (t : TransactionType) : t.toU8 < 256 := by
  cases t <;> simp [TransactionType.toU8]

theorem TransactionState.toU8_lt_st (s : TransactionState) : s.toU8 < 256 := by
  cases s <;> simp [TransactionState.toU8]

/-- C5: TransactionEntry::serialize emits exactly 512 bytes per log entry for
every TransactionEntry value.  REFUTED by the code: the serializer writes
4 + 2 + 1 + 1 + 4 + 8 + 2 + 64·4 + 200 + 4 + 22 = 504 bytes, 8 bytes short of
the declared `TRANSACTION_ENTRY_SIZE` of 512 (the reserved tail would need 30
bytes, not 22).  Evaluated here on the empty entry `TransactionEntry::new`. -/
theorem serialize_new_length_eq_504 :
    (TransactionEntry.new.serialize).length = 504 ∧
      (TransactionEntry.new.serialize).length ≠ TRANSACTION_ENTRY_SIZE := by
  constructor <;> decide

/-- C6: for every well-formed transaction entry (fields within their Rust
integer ranges, 64 affected sectors, 200 backup bytes), deserializing the
bytes produced by `TransactionEntry::serialize` recovers the entry exactly,
field for field. -/
theorem deserialize_serialize_roundtrip (e : TransactionEntry) (h : e.WF) :
    TransactionEntry.deserialize e.serialize = some e := by
  obtain ⟨h1, h2, h3, h4, h5, h6, h7, h8, h9⟩ := h
  have p2 : (256 : Nat) ^ 2 = 2 ^ 16 := by norm_num
  have p4 : (256 : Nat) ^ 4 = 2 ^ 32 := by norm_num
  have p8 : (256 : Nat) ^ 8 = 2 ^ 64 := by norm_num
  have hsec : e.affectedSectors.map (fun x => x % 2 ^ 32) = e.affectedSectors := by
    rw [show (e.affectedSectors.map (fun x => x % 2 ^ 32)) =
        e.affectedSectors.map (fun a => a) from
      List.map_congr_left fun s hs => Nat.mod_eq_of_lt (h7 s hs)]
    exact List.map_id' _
  have h64 : (64 : Nat) = e.affectedSectors.length := h6.symm
  have h200 : (200 : Nat) = e.backupData.length := h8.symm
  have ht : e.txType.toU8 % 256 ^ 1 = e.txType.toU8 := by
    rw [pow_one]; exact Nat.mod_eq_of_lt e.txType.toU8_lt_ty
  have hst : e.txState.toU8 % 256 ^ 1 = e.txState.toU8 := by
    rw [pow_one]; exact Nat.mod_eq_of_lt e.txState.toU8_lt_st
  simp only [TransactionEntry.deserialize, TransactionEntry.serialize, List.append_assoc]
  rw [takeLE_append, Option.some_bind]
  rw [takeLE_append, Option.some_bind]
  rw [takeLE_append, Option.some_bind]
  rw [ht, TransactionType.fromU8_toU8_ty, Option.some_bind]
  rw [takeLE_append, Option.some_bind]
  rw [hst, TransactionState.fromU8_toU8_st, Option.some_bind]
  rw [takeLE_append, Option.some_bind]
  rw [takeLE_append, Option.some_bind]
  rw [takeLE_append, Option.some_bind]
  rw [h64, takeLEList_append, Option.some_bind]
  rw [h200, takeBytes_append, Option.some_bind]
  rw [takeLE_append, Option.some_bind]
  rw [takeBytes_replicate, Option.some_bind]
  rw [p2, p4, p8, hsec, Nat.mod_eq_of_lt h1, Nat.mod_eq_of_lt h2, Nat.mod_eq_of_lt h3,
    Nat.mod_eq_of_lt h4, Nat.mod_eq_of_lt h5, Nat.mod_eq_of_lt h9]

/-- Witness for C6: the round-trip theorem applied to a concrete entry. -/
theorem deserialize_serialize_roundtrip_witness :
    TransactionEntry.deserialize (TransactionEntry.new.serialize) =
      some TransactionEntry.new :=
  deserialize_serialize_roundtrip TransactionEntry.new (by decide)

/-! ## File lock manager (`src/fatrs/src/file_locking.rs`)

The `BTreeMap<u32, FileLockState>` is modelled as an association list with
distinct keys; `get_mut` + in-place mutation is modelled as lookup followed by
a replacing insert.  The `u32` reader count wraps at `2^32` (release-mode
overflow semantics of `state.readers += 1`). -/

/-- `LockType` from file_locking.rs. -/
inductive LockType where
  | shared
  | exclusive
  deriving DecidableEq, Repr

/-- `FileLockState` from file_locking.rs. -/
structure FileLockState where
  readers : Nat
  exclusive : Bool
  deriving DecidableEq, Repr

/-- `FileLockState::new_shared`. -/
def FileLockState.newShared : FileLockState := ⟨1, false⟩

/-- `FileLockState::new_exclusive`. -/
def FileLockState.newExclusive : FileLockState := ⟨0, true⟩

/-- `FileLockState::is_empty`. -/
def FileLockState.isEmpty (s : FileLockState) : Bool :=
  s.readers == 0 && !s.exclusive

/-- Lookup in the association-list model of the `BTreeMap`. -/
def alGet : List (Nat × FileLockState) → Nat → Option FileLockState
  | [], _ => none
  | (k', v) :: t, k => if k' = k then some v else alGet t k

/-- Replacing insert in the association-list model of the `BTreeMap`. -/
def alInsert : List (Nat × FileLockState) → Nat → FileLockState →
    List (Nat × FileLockState)
  | [], k, v => [(k, v)]
  | (k', v') :: t, k, v =>
    if k' = k then (k, v) :: t else (k', v') :: alInsert t k v

/-- Removal in the association-list model of the `BTreeMap`. -/
def alRemove : List (Nat × FileLockState) → Nat → List (Nat × FileLockState)
  | [], _ => []
  | (k', v') :: t, k => if k' = k then t else (k', v') :: alRemove t k

/-- `FileLockManager` from file_locking.rs. -/
structure FileLockManager where
  locks : List (Nat × FileLockState)
  deriving DecidableEq, Repr

/-- `FileLockManager::new`. -/
def FileLockManager.new : FileLockManager := ⟨[]⟩

/-- `FileLockManager::try_lock` from file_locking.rs: returns whether the lock
was acquired (`Ok(())` vs `Err(())`) together with the updated manager. -/
def FileLockManager.tryLock (m : FileLockManager) (cluster : Nat)
    (lockType : LockType) : Bool × FileLockManager :=
  match alGet m.locks cluster with
  | some st =>
    match lockType with
    | .shared =>
      if st.exclusive then (false, m)
      else (true, ⟨alInsert m.locks cluster
        { st with readers := (st.readers + 1) % 2 ^ 32 }⟩)
    | .exclusive =>
      if st.exclusive || st.readers > 0 then (false, m)
      else (true, ⟨alInsert m.locks cluster { st with exclusive := true }⟩)
  | none =>
    match lockType with
    | .shared => (true, ⟨alInsert m.locks cluster FileLockState.newShared⟩)
    | .exclusive => (true, ⟨alInsert m.locks cluster FileLockState.newExclusive⟩)

/-- `FileLockManager::unlock` from file_locking.rs (release-mode semantics:
the `debug_assert!`s are no-ops; `saturating_sub` is `Nat` subtraction). -/
def FileLockManager.unlock (m : FileLockManager) (cluster : Nat)
    (lockType : LockType) : FileLockManager :=
  match alGet m.locks cluster with
  | some st =>
    let st' : FileLockState :=
      match lockType with
      | .shared => { st with readers := st.readers - 1 }
      | .exclusive => { st with exclusive := false }
    if st'.isEmpty then ⟨alRemove m.locks cluster⟩
    else ⟨alInsert m.locks cluster st'⟩
  | none => m

/-- Reader count recorded for a cluster (0 when no entry is present). -/
def FileLockManager.readersOf (m : FileLockManager) (cluster : Nat) : Nat :=
  match alGet m.locks cluster with
  | some st => st.readers
  | none => 0

/-- Whether an exclusive lock is recorded for a cluster. -/
def FileLockManager.exclusiveHeld (m : FileLockManager) (cluster : Nat) : Bool :=
  match alGet m.locks cluster with
  | some st => st.exclusive
  | none => false

theorem alGet_alInsert (l : List (Nat × FileLockState)) (k : Nat)
    (v : FileLockState) : alGet (alInsert l k v) k = some v := by
  induction l with
  | nil => simp [alInsert, alGet]
  | cons h t ih =>
    by_cases hk : h.1 = k
    · simp [alInsert, hk, alGet]
    · simp [alInsert, hk, alGet, ih]

/-- C7 (amended): shared acquisition succeeds iff no exclusive lock is held;
exclusive acquisition succeeds iff there are no readers and no exclusive
lock; a successful shared acquisition increments the reader count by one
modulo 2^32 (the `u32` counter wraps); a successful exclusive acquisition
sets the exclusive flag. -/
theorem tryLock_spec (m : FileLockManager) (c : Nat) :
    ((m.tryLock c .shared).1 = true ↔ m.exclusiveHeld c = false) ∧
    ((m.tryLock c .exclusive).1 = true ↔
      (m.readersOf c = 0 ∧ m.exclusiveHeld c = false)) ∧
    ((m.tryLock c .shared).1 = true →
      (m.tryLock c .shared).2.readersOf c = (m.readersOf c + 1) % 2 ^ 32) ∧
    ((m.tryLock c .exclusive).1 = true →
      (m.tryLock c .exclusive).2.exclusiveHeld c = true) := by
  unfold FileLockManager.tryLock FileLockManager.readersOf FileLockManager.exclusiveHeld
  match hget : alGet m.locks c with
  | some st =>
    by_cases hx : st.exclusive
    · simp [hget, hx]
    · by_cases hr : st.readers > 0
      · simp [hget, hx, hr, alGet_alInsert, Nat.pos_iff_ne_zero.mp hr]
      · have hr0 : st.readers = 0 := Nat.eq_zero_of_not_pos hr
        simp [hget, hx, hr, hr0, alGet_alInsert]
  | none =>
    simp [hget, alGet_alInsert, FileLockState.newShared, FileLockState.newExclusive]

/-- C7 counterexample: in the lock-table state where cluster 5 has
2^32 − 1 readers, a shared `try_lock` succeeds but the `u32` reader count
wraps to 0 instead of increasing by one. -/
theorem tryLock_readers_wrap_at_u32_max :
    (FileLockManager.tryLock ⟨[(5, ⟨2 ^ 32 - 1, false⟩)]⟩ 5 .shared).1 = true ∧
    (FileLockManager.tryLock ⟨[(5, ⟨2 ^ 32 - 1, false⟩)]⟩ 5 .shared).2.readersOf 5 = 0 ∧
    (FileLockManager.readersOf ⟨[(5, ⟨2 ^ 32 - 1, false⟩)]⟩ 5) + 1 ≠ 0 := by
  refine ⟨rfl, ?_, by decide⟩
  show ((2 ^ 32 - 1 + 1) % 2 ^ 32 : Nat) = 0
  decide

/-- A call against the lock manager: `try_lock` or `unlock`. -/
inductive LockOp where
  | lock (cluster : Nat) (lockType : LockType)
  | unlock (cluster : Nat) (lockType : LockType)
  deriving DecidableEq, Repr

/-- Apply one lock-manager call (the result of a failed `try_lock` leaves the
manager unchanged). -/
def FileLockManager.applyOp (m : FileLockManager) : LockOp → FileLockManager
  | .lock c lt => (m.tryLock c lt).2
  | .unlock c lt => m.unlock c lt

/-- Run a sequence of lock-manager calls from the empty manager. -/
def execLockOps (ops : List LockOp) : FileLockManager :=
  ops.foldl FileLockManager.applyOp FileLockManager.new

theorem FileLockState.isEmpty_eq_false_of_readers_pos {s : FileLockState}
    (h : 0 < s.readers) : s.isEmpty = false := by
  unfold FileLockState.isEmpty
  have : (s.readers == 0) = false := by
    simp
    omega
  rw [this, Bool.false_and]

theorem FileLockState.isEmpty_eq_false_of_exclusive {s : FileLockState}
    (h : s.exclusive = true) : s.isEmpty = false := by
  unfold FileLockState.isEmpty
  rw [h]
  simp

theorem alGet_mem {l : List (Nat × FileLockState)} {k : Nat} {v : FileLockState}
    (h : alGet l k = some v) : (k, v) ∈ l := by
  induction l with
  | nil => simp [alGet] at h
  | cons p t ih =>
    obtain ⟨k', v'⟩ := p
    by_cases hk : k' = k
    · subst hk
      simp only [alGet, if_pos rfl] at h
      injection h with h
      subst h
      exact List.mem_cons_self _ _
    · simp only [alGet, if_neg hk] at h
      exact List.mem_cons_of_mem _ (ih h)

theorem mem_alInsert {l : List (Nat × FileLockState)} {k : Nat}
    {v : FileLockState} {p : Nat × FileLockState} (h : p ∈ alInsert l k v) :
    p = (k, v) ∨ p ∈ l := by
  induction l with
  | nil => simpa [alInsert] using h
  | cons q t ih =>
    obtain ⟨k', v'⟩ := q
    by_cases hk : k' = k
    · simp only [alInsert, if_pos hk] at h
      rcases List.mem_cons.mp h with h | h
      · exact Or.inl h
      · exact Or.inr (List.mem_cons_of_mem _ h)
    · simp only [alInsert, if_neg hk] at h
      rcases List.mem_cons.mp h with h | h
      · exact Or.inr (h ▸ List.mem_cons_self _ _)
      · rcases ih h with h' | h'
        · exact Or.inl h'
        · exact Or.inr (List.mem_cons_of_mem _ h')

theorem mem_alRemove {l : List (Nat × FileLockState)} {k : Nat}
    {p : Nat × FileLockState} (h : p ∈ alRemove l k) : p ∈ l := by
  induction l with
  | nil => simp [alRemove] at h
  | cons q t ih =>
    obtain ⟨k', v'⟩ := q
    by_cases hk : k' = k
    · simp only [alRemove, if_pos hk] at h
      exact List.mem_cons_of_mem _ h
    · simp only [alRemove, if_neg hk] at h
      rcases List.mem_cons.mp h with h | h
      · exact h ▸ List.mem_cons_self _ _
      · exact List.mem_cons_of_mem _ (ih h)

/-- Lock-manager states reachable from the empty manager by `try_lock` and
`unlock` calls in which no shared acquisition overflows the `u32` reader
count. -/
inductive ReachableLock : FileLockManager → Prop where
  | init : ReachableLock FileLockManager.new
  | lockStep (m : FileLockManager) (c : Nat) (lt : LockType)
      (h : ReachableLock m)
      (hg : lt = LockType.shared → m.readersOf c + 1 < 2 ^ 32) :
      ReachableLock (m.tryLock c lt).2
  | unlockStep (m : FileLockManager) (c : Nat) (lt : LockType)
      (h : ReachableLock m) : ReachableLock (m.unlock c lt)

/-- C8 (amended): in every reachable lock-manager state in which no shared
acquisition has overflowed the u32 reader counter, every entry present in the
table is non-empty (readers > 0 or exclusive), and no entry has the exclusive
flag together with a positive reader count. -/
theorem lock_table_entries_nonempty (m : FileLockManager) (h : ReachableLock m)
    (k : Nat) (st : FileLockState) (hmem : (k, st) ∈ m.locks) :
    st.isEmpty = false ∧ ¬(st.exclusive = true ∧ 0 < st.readers) := by
  induction h generalizing k st with
  | init => simp [FileLockManager.new] at hmem
  | lockStep m c lt hr hg ih =>
    cases hget : alGet m.locks c with
    | some st₀ =>
      have hst₀ := ih c st₀ (alGet_mem hget)
      cases lt with
      | shared =>
        by_cases hx : st₀.exclusive = true
        · have hfail : (m.tryLock c .shared).2 = m := by
            simp [FileLockManager.tryLock, hget, hx]
          rw [hfail] at hmem
          exact ih k st hmem
        · have hxf : st₀.exclusive = false := by simpa using hx
          have hsucc : (m.tryLock c .shared).2 =
              ⟨alInsert m.locks c { st₀ with readers := (st₀.readers + 1) % 2 ^ 32 }⟩ := by
            simp [FileLockManager.tryLock, hget, hxf]
          rw [hsucc] at hmem
          rcases mem_alInsert hmem with heq | hold
          · injection heq with hk1 hst
            subst hst
            refine ⟨?_, ?_⟩
            · apply FileLockState.isEmpty_eq_false_of_readers_pos
              show 0 < (st₀.readers + 1) % 2 ^ 32
              have hrd : m.readersOf c = st₀.readers := by
                unfold FileLockManager.readersOf
                rw [hget]
              have hlt : st₀.readers + 1 < 2 ^ 32 := by
                have hgg := hg rfl
                omega
              rw [Nat.mod_eq_of_lt hlt]
              omega
            · intro hcon
              have hxx : st₀.exclusive = true := hcon.1
              rw [hxf] at hxx
              exact Bool.false_ne_true hxx
          · exact ih k st hold
      | exclusive =>
        by_cases hcond : (st₀.exclusive || decide (st₀.readers > 0)) = true
        · have hfail : (m.tryLock c .exclusive).2 = m := by
            simp only [FileLockManager.tryLock, hget]
            rw [if_pos hcond]
          rw [hfail] at hmem
          exact ih k st hmem
        · have hc := hcond
          rw [Bool.or_eq_true] at hc
          push_neg at hc
          obtain ⟨hx1, hr1⟩ := hc
          have hxf : st₀.exclusive = false := by simpa using hx1
          have hr0 : st₀.readers = 0 := by
            have : ¬(st₀.readers > 0) := by simpa using hr1
            omega
          have hsucc : (m.tryLock c .exclusive).2 =
              ⟨alInsert m.locks c { st₀ with exclusive := true }⟩ := by
            simp only [FileLockManager.tryLock, hget]
            rw [if_neg hcond]
          rw [hsucc] at hmem
          rcases mem_alInsert hmem with heq | hold
          · injection heq with hk1 hst
            subst hst
            refine ⟨FileLockState.isEmpty_eq_false_of_exclusive rfl, ?_⟩
            intro hcon
            have hpos : 0 < st₀.readers := hcon.2
            omega
          · exact ih k st hold
    | none =>
      cases lt with
      | shared =>
        have hsucc : (m.tryLock c .shared).2 =
            ⟨alInsert m.locks c FileLockState.newShared⟩ := by
          simp [FileLockManager.tryLock, hget]
        rw [hsucc] at hmem
        rcases mem_alInsert hmem with heq | hold
        · injection heq with hk1 hst
          subst hst
          exact ⟨by decide, by decide⟩
        · exact ih k st hold
      | exclusive =>
        have hsucc : (m.tryLock c .exclusive).2 =
            ⟨alInsert m.locks c FileLockState.newExclusive⟩ := by
          simp [FileLockManager.tryLock, hget]
        rw [hsucc] at hmem
        rcases mem_alInsert hmem with heq | hold
        · injection heq with hk1 hst
          subst hst
          exact ⟨by decide, by decide⟩
        · exact ih k st hold
  | unlockStep m c lt hr ih =>
    cases hget : alGet m.locks c with
    | some st₀ =>
      have hst₀ := ih c st₀ (alGet_mem hget)
      cases lt with
      | shared =>
        by_cases hemp : FileLockState.isEmpty { st₀ with readers := st₀.readers - 1 } = true
        · have hrm : m.unlock c .shared = ⟨alRemove m.locks c⟩ := by
            simp [FileLockManager.unlock, hget, hemp]
          rw [hrm] at hmem
          exact ih k st (mem_alRemove hmem)
        · have hins : m.unlock c .shared =
              ⟨alInsert m.locks c { st₀ with readers := st₀.readers - 1 }⟩ := by
            simp only [FileLockManager.unlock, hget]
            rw [if_neg hemp]
          rw [hins] at hmem
          rcases mem_alInsert hmem with heq | hold
          · injection heq with hk1 hst
            subst hst
            refine ⟨by simpa using hemp, ?_⟩
            intro hcon
            have hx0 : st₀.exclusive = true := hcon.1
            have hr0 : st₀.readers = 0 := by
              by_contra hne
              exact hst₀.2 ⟨hx0, by omega⟩
            have hpos : 0 < st₀.readers - 1 := hcon.2
            omega
          · exact ih k st hold
      | exclusive =>
        by_cases hemp : FileLockState.isEmpty { st₀ with exclusive := false } = true
        · have hrm : m.unlock c .exclusive = ⟨alRemove m.locks c⟩ := by
            simp [FileLockManager.unlock, hget, hemp]
          rw [hrm] at hmem
          exact ih k st (mem_alRemove hmem)
        · have hins : m.unlock c .exclusive =
              ⟨alInsert m.locks c { st₀ with exclusive := false }⟩ := by
            simp only [FileLockManager.unlock, hget]
            rw [if_neg hemp]
          rw [hins] at hmem
          rcases mem_alInsert hmem with heq | hold
          · injection heq with hk1 hst
            subst hst
            refine ⟨by simpa using hemp, ?_⟩
            intro hcon
            exact Bool.false_ne_true hcon.1
          · exact ih k st hold
    | none =>
      have hid : m.unlock c lt = m := by
        simp [FileLockManager.unlock, hget]
      rw [hid] at hmem
      exact ih k st hmem

/-- Witness for C8: the invariant theorem applied to the state after one
successful shared acquisition on cluster 7. -/
theorem lock_table_entries_nonempty_witness :
    (FileLockState.mk 1 false).isEmpty = false ∧
      ¬((FileLockState.mk 1 false).exclusive = true ∧
        0 < (FileLockState.mk 1 false).readers) :=
  lock_table_entries_nonempty
    ((FileLockManager.new).tryLock 7 .shared).2
    (ReachableLock.lockStep FileLockManager.new 7 .shared ReachableLock.init
      (fun _ => by decide))
    7 (FileLockState.mk 1 false) (by decide)

theorem exec_replicate_shared (n : Nat) (hn : 1 ≤ n) :
    execLockOps (List.replicate n (LockOp.lock 0 .shared)) =
      ⟨[(0, ⟨n % 2 ^ 32, false⟩)]⟩ := by
  induction n with
  | zero => omega
  | succ n ih =>
    by_cases hn1 : 1 ≤ n
    · have hrep : List.replicate (n + 1) (LockOp.lock 0 .shared) =
          List.replicate n (LockOp.lock 0 .shared) ++ [LockOp.lock 0 .shared] :=
        List.replicate_succ' ..
      have ihe := ih hn1
      unfold execLockOps at ihe ⊢
      rw [hrep, List.foldl_append, ihe]
      have hstep : FileLockManager.applyOp ⟨[(0, ⟨n % 2 ^ 32, false⟩)]⟩
          (LockOp.lock 0 .shared) =
          ⟨[(0, ⟨(n % 2 ^ 32 + 1) % 2 ^ 32, false⟩)]⟩ := rfl
      simp only [List.foldl_cons, List.foldl_nil, hstep]
      rw [Nat.mod_add_mod]
    · have hn0 : n = 0 := by omega
      subst hn0
      have hbase : execLockOps (List.replicate 1 (LockOp.lock 0 .shared)) =
          ⟨[(0, ⟨1, false⟩)]⟩ := rfl
      rw [hbase, Nat.mod_eq_of_lt (by norm_num)]

/-- C8 counterexample: the claim as stated (over every try_lock/unlock
sequence) fails - after 2^32 successful shared acquisitions on cluster 0 the
u32 reader count wraps to 0, leaving an entry in the table that is empty. -/
theorem lock_table_empty_entry_reachable :
    execLockOps (List.replicate (2 ^ 32) (LockOp.lock 0 .shared)) =
      ⟨[(0, ⟨0, false⟩)]⟩ ∧ (FileLockState.mk 0 false).isEmpty = true := by
  constructor
  · rw [exec_replicate_shared (2 ^ 32) (by norm_num), Nat.mod_self]
  · rfl

/-! ## Cluster bitmap (`src/fatrs/src/cluster_bitmap.rs`)

The `Vec<u8>` bitmap is a byte list; indexing is `getD`/`set` (all accesses
performed by the source are in bounds).  `free_count` arithmetic follows the
source: `saturating_sub`/`saturating_add` on a `u32`. -/

/-- FAT entry value.  Modelled from the spec: the FAT table module
(`table.rs`, with `FatValue` and the per-variant `get` accessors) is not part
of the available sources; the spec gives the value space `Free`, `Data(next)`,
`Bad`, `EndOfChain`, `Reserved`. -/
inductive FatValue where
  | free
  | data (next : Nat)
  | bad
  | endOfChain
  | reserved
  deriving DecidableEq, Repr

/-- Modelled from the spec: `RESERVED_FAT_ENTRIES` from the missing
`table.rs`; reserved FAT entries 0 and 1 are never allocated, valid data
clusters begin at 2. -/
def RESERVED_FAT_ENTRIES : Nat := 2

/-- `ClusterBitmap` from cluster_bitmap.rs (statistics fields omitted). -/
structure ClusterBitmap where
  bitmap : List Nat
  totalClusters : Nat
  nextFreeHint : Nat
  freeCount : Nat
  dirty : Bool
  deriving DecidableEq, Repr

/-- `ClusterBitmap::new` from cluster_bitmap.rs. -/
def ClusterBitmap.new (totalClusters : Nat) : ClusterBitmap where
  bitmap := List.replicate ((totalClusters + 7) / 8) 0
  totalClusters := totalClusters
  nextFreeHint := 0
  freeCount := totalClusters
  dirty := false

/-- `ClusterBitmap::is_free` from cluster_bitmap.rs. -/
def ClusterBitmap.isFree (b : ClusterBitmap) (cluster : Nat) : Bool :=
  if b.totalClusters ≤ cluster then false
  else ((b.bitmap.getD (cluster / 8) 0) &&& (1 <<< (cluster % 8))) == 0

/-- `ClusterBitmap::is_allocated` from cluster_bitmap.rs. -/
def ClusterBitmap.isAllocated (b : ClusterBitmap) (cluster : Nat) : Bool :=
  !b.isFree cluster

/-- `ClusterBitmap::set_allocated` from cluster_bitmap.rs: the free count is
decremented (`saturating_sub`) only when the cluster was free, then the bit is
set. -/
def ClusterBitmap.setAllocated (b : ClusterBitmap) (cluster : Nat) : ClusterBitmap :=
  if b.totalClusters ≤ cluster then b
  else
    { b with
      freeCount := if b.isFree cluster then b.freeCount - 1 else b.freeCount,
      bitmap := b.bitmap.set (cluster / 8)
        ((b.bitmap.getD (cluster / 8) 0) ||| (1 <<< (cluster % 8))),
      dirty := true }

/-- `ClusterBitmap::set_free` from cluster_bitmap.rs: the free count is
incremented (`saturating_add`, capped at `u32::MAX`) only when the cluster was
allocated, the bit is cleared (`!` on the `u8` mask is `255 ^^^ ·`), and the
hint moves down to the freed cluster when it lies before the current hint. -/
def ClusterBitmap.setFree (b : ClusterBitmap) (cluster : Nat) : ClusterBitmap :=
  if b.totalClusters ≤ cluster then b
  else
    { b with
      freeCount := if b.isAllocated cluster then
          min (b.freeCount + 1) (2 ^ 32 - 1) else b.freeCount,
      bitmap := b.bitmap.set (cluster / 8)
        ((b.bitmap.getD (cluster / 8) 0) &&& (255 ^^^ (1 <<< (cluster % 8)))),
      dirty := true,
      nextFreeHint := if cluster < b.nextFreeHint then cluster else b.nextFreeHint }

/-- One iteration of the `build_from_fat` scan loop from cluster_bitmap.rs. -/
def ClusterBitmap.buildStep (fat : Nat → FatValue) (acc : ClusterBitmap)
    (cluster : Nat) : ClusterBitmap :=
  match fat cluster with
  | .free => { acc with freeCount := (acc.freeCount + 1) % 2 ^ 32 }
  | _ =>
    let byteIdx := cluster / 8
    let bitIdx := cluster % 8
    { acc with
      bitmap := acc.bitmap.set byteIdx ((acc.bitmap.getD byteIdx 0) ||| (1 <<< bitIdx)) }

/-- `ClusterBitmap::build_from_fat` from cluster_bitmap.rs: reset the bitmap,
zero the free count, set the hint to `RESERVED_FAT_ENTRIES`, scan clusters
`RESERVED_FAT_ENTRIES..total_clusters` through the FAT (`fat` is the abstract
FAT lookup), then clear the dirty flag. -/
def ClusterBitmap.buildFromFat (b : ClusterBitmap) (fat : Nat → FatValue)
    (totalClusters : Nat) : ClusterBitmap :=
  let b₀ : ClusterBitmap := { b with
    bitmap := List.replicate b.bitmap.length 0,
    freeCount := 0,
    nextFreeHint := RESERVED_FAT_ENTRIES }
  let b₁ := (List.range' RESERVED_FAT_ENTRIES
    (totalClusters - RESERVED_FAT_ENTRIES)).foldl (ClusterBitmap.buildStep fat) b₀
  { b₁ with dirty := false }

/-- `ClusterBitmap::free_count` from cluster_bitmap.rs. -/
def ClusterBitmap.free_count (b : ClusterBitmap) : Nat := b.freeCount

/-- The number of clusters below `total_clusters` whose bitmap bit is clear
(i.e. that `is_free` reports as free). -/
def ClusterBitmap.countFreeBelow (b : ClusterBitmap) : Nat :=
  ((Finset.range b.totalClusters).filter (fun c => b.isFree c = true)).card

/-- Bit `c % 8` of byte `c / 8` of a byte list. -/
def bmTestBit (bm : List Nat) (c : Nat) : Bool :=
  (bm.getD (c / 8) 0).testBit (c % 8)

theorem land_shift_eq_zero_iff (x i : Nat) :
    ((x &&& (1 <<< i)) == 0) = !x.testBit i := by
  rw [Nat.shiftLeft_eq, one_mul, Nat.and_two_pow]
  cases h : x.testBit i
  · simp
  · have h2 : (2 : Nat) ^ i ≠ 0 := by positivity
    simp [h2]

theorem isFree_eq_not_bmTestBit (b : ClusterBitmap) (c : Nat)
    (hc : c < b.totalClusters) : b.isFree c = !bmTestBit b.bitmap c := by
  unfold ClusterBitmap.isFree bmTestBit
  rw [if_neg (by omega)]
  exact land_shift_eq_zero_iff ..

theorem getD_set_self (l : List Nat) (i v : Nat) (h : i < l.length) :
    (l.set i v).getD i 0 = v := by
  simp [List.getD, List.getElem?_set_self', h]

theorem getD_set_ne (l : List Nat) (i j v : Nat) (h : i ≠ j) :
    (l.set i v).getD j 0 = l.getD j 0 := by
  simp [List.getD, List.getElem?_set_ne h]

theorem div_mod_eight_eq {c c' : Nat} (hdiv : c / 8 = c' / 8)
    (hmod : c % 8 = c' % 8) : c = c' := by
  omega

theorem bmTestBit_setBitOr (bm : List Nat) (c c' : Nat)
    (hidx : c / 8 < bm.length) :
    bmTestBit (bm.set (c / 8) ((bm.getD (c / 8) 0) ||| (1 <<< (c % 8)))) c' =
      (bmTestBit bm c' || decide (c' = c)) := by
  unfold bmTestBit
  by_cases hb : c' / 8 = c / 8
  · rw [hb, getD_set_self _ _ _ hidx, Nat.testBit_or, Nat.shiftLeft_eq, one_mul,
      Nat.testBit_two_pow]
    by_cases hm : c' % 8 = c % 8
    · have : c' = c := div_mod_eight_eq hb hm
      simp [this]
    · have hne : c' ≠ c := fun h => hm (by rw [h])
      have : (c % 8 = c' % 8) = False := by
        simp
        omega
      simp [hne, this]
  · rw [getD_set_ne _ _ _ _ (fun h => hb h.symm)]
    have hne : c' ≠ c := fun h => hb (by rw [h])
    simp [hne]

theorem testBit_mask255 (i j : Nat) (hj : j < 8) :
    (255 ^^^ (1 <<< i)).testBit j = !decide (j = i) := by
  rw [Nat.testBit_xor, Nat.shiftLeft_eq, one_mul, Nat.testBit_two_pow]
  have h255 : (255 : Nat) = 2 ^ 8 - 1 := by norm_num
  rw [h255, Nat.testBit_two_pow_sub_one]
  by_cases hij : i = j
  · simp [hij, hj]
  · have : ¬(j = i) := fun h => hij h.symm
    simp [hj, hij, this]

theorem bmTestBit_setBitClear (bm : List Nat) (c c' : Nat)
    (hidx : c / 8 < bm.length) :
    bmTestBit (bm.set (c / 8) ((bm.getD (c / 8) 0) &&& (255 ^^^ (1 <<< (c % 8))))) c' =
      (bmTestBit bm c' && !decide (c' = c)) := by
  unfold bmTestBit
  by_cases hb : c' / 8 = c / 8
  · rw [hb, getD_set_self _ _ _ hidx, Nat.testBit_and,
      testBit_mask255 _ _ (Nat.mod_lt _ (by norm_num))]
    by_cases hm : c' % 8 = c % 8
    · have : c' = c := div_mod_eight_eq hb hm
      simp [this]
    · have hne : c' ≠ c := fun h => hm (by rw [h])
      have hmm : (c' % 8 = c % 8) = False := by simp [hm]
      simp [hne, hmm]
  · rw [getD_set_ne _ _ _ _ (fun h => hb h.symm)]
    have hne : c' ≠ c := fun h => hb (by rw [h])
    simp [hne]

theorem buildStep_totalClusters (fat : Nat → FatValue) (acc : ClusterBitmap)
    (lo : Nat) :
    (ClusterBitmap.buildStep fat acc lo).totalClusters = acc.totalClusters := by
  unfold ClusterBitmap.buildStep
  cases fat lo <;> rfl

theorem buildStep_length (fat : Nat → FatValue) (acc : ClusterBitmap) (lo : Nat) :
    (ClusterBitmap.buildStep fat acc lo).bitmap.length = acc.bitmap.length := by
  unfold ClusterBitmap.buildStep
  cases fat lo <;> simp [List.length_set]

theorem buildStep_bitmap_free (fat : Nat → FatValue) (acc : ClusterBitmap)
    (lo : Nat) (h : fat lo = .free) :
    (ClusterBitmap.buildStep fat acc lo).bitmap = acc.bitmap := by
  unfold ClusterBitmap.buildStep
  rw [h]

theorem buildStep_bitmap_nonfree (fat : Nat → FatValue) (acc : ClusterBitmap)
    (lo : Nat) (h : fat lo ≠ .free) :
    (ClusterBitmap.buildStep fat acc lo).bitmap =
      acc.bitmap.set (lo / 8) ((acc.bitmap.getD (lo / 8) 0) ||| (1 <<< (lo % 8))) := by
  unfold ClusterBitmap.buildStep
  cases hf : fat lo
  · exact absurd hf h
  all_goals rfl

theorem buildFold_totalClusters (fat : Nat → FatValue) (l : List Nat)
    (acc : ClusterBitmap) :
    (l.foldl (ClusterBitmap.buildStep fat) acc).totalClusters = acc.totalClusters := by
  induction l generalizing acc with
  | nil => rfl
  | cons a l ih => rw [List.foldl_cons, ih, buildStep_totalClusters]

theorem buildFold_bmTestBit (fat : Nat → FatValue) (len : Nat) :
    ∀ (lo : Nat) (acc : ClusterBitmap), lo + len ≤ 8 * acc.bitmap.length →
    ∀ (c' : Nat),
    bmTestBit ((List.range' lo len).foldl (ClusterBitmap.buildStep fat) acc).bitmap c' =
      if lo ≤ c' ∧ c' < lo + len then
        (if fat c' = .free then bmTestBit acc.bitmap c' else true)
      else bmTestBit acc.bitmap c' := by
  induction len with
  | zero =>
    intro lo acc _ c'
    rw [if_neg (by omega)]
    rfl
  | succ len ih =>
    intro lo acc hlen c'
    rw [List.range'_succ, List.foldl_cons]
    have hidx : lo / 8 < acc.bitmap.length := by omega
    have hlen' : lo + 1 + len ≤ 8 * (ClusterBitmap.buildStep fat acc lo).bitmap.length := by
      rw [buildStep_length]
      omega
    rw [ih (lo + 1) _ hlen' c']
    by_cases hfat : fat lo = .free
    · rw [buildStep_bitmap_free _ _ _ hfat]
      by_cases h2 : lo + 1 ≤ c' ∧ c' < lo + 1 + len
      · rw [if_pos h2, if_pos (show lo ≤ c' ∧ c' < lo + (len + 1) by omega)]
      · rw [if_neg h2]
        by_cases h3 : lo ≤ c' ∧ c' < lo + (len + 1)
        · have hc : c' = lo := by omega
          rw [if_pos h3, hc, hfat, if_pos rfl]
        · rw [if_neg h3]
    · rw [buildStep_bitmap_nonfree _ _ _ hfat, bmTestBit_setBitOr _ _ _ hidx]
      by_cases h2 : lo + 1 ≤ c' ∧ c' < lo + 1 + len
      · have hne : decide (c' = lo) = false := by
          simp only [decide_eq_false_iff_not]
          omega
        rw [if_pos h2, if_pos (show lo ≤ c' ∧ c' < lo + (len + 1) by omega), hne]
        simp only [Bool.or_false]
      · rw [if_neg h2]
        by_cases h3 : lo ≤ c' ∧ c' < lo + (len + 1)
        · have hc : c' = lo := by omega
          rw [if_pos h3, hc, if_neg hfat]
          simp
        · rw [if_neg h3]
          have hne : decide (c' = lo) = false := by
            simp only [decide_eq_false_iff_not]
            omega
          rw [hne]
          simp only [Bool.or_false]

theorem getD_replicate_zero (n i : Nat) :
    (List.replicate n (0 : Nat)).getD i 0 = 0 := by
  induction n generalizing i with
  | zero => simp [List.getD]
  | succ n ih =>
    cases i with
    | zero => rfl
    | succ i =>
      show (List.replicate n (0 : Nat)).getD i 0 = 0
      exact ih i

theorem buildFromFat_totalClusters (b : ClusterBitmap) (fat : Nat → FatValue)
    (total : Nat) :
    (b.buildFromFat fat total).totalClusters = b.totalClusters := by
  show ((List.range' RESERVED_FAT_ENTRIES (total - RESERVED_FAT_ENTRIES)).foldl
      (ClusterBitmap.buildStep fat)
      { b with bitmap := List.replicate b.bitmap.length 0, freeCount := 0,
               nextFreeHint := RESERVED_FAT_ENTRIES }).totalClusters = b.totalClusters
  rw [buildFold_totalClusters]

theorem buildFromFat_bmTestBit (fat : Nat → FatValue) (total : Nat) (C : Nat)
    (htot : 1 ≤ total) :
    bmTestBit (((ClusterBitmap.new total).buildFromFat fat total)).bitmap C =
      if RESERVED_FAT_ENTRIES ≤ C ∧ C < total then
        (if fat C = .free then false else true)
      else false := by
  have hshow : (((ClusterBitmap.new total).buildFromFat fat total)).bitmap =
      ((List.range' 2 (total - 2)).foldl (ClusterBitmap.buildStep fat)
        { ClusterBitmap.new total with
          bitmap := List.replicate ((ClusterBitmap.new total).bitmap.length) 0,
          freeCount := 0, nextFreeHint := 2 }).bitmap := rfl
  rw [hshow]
  have hlen : 2 + (total - 2) ≤
      8 * (List.replicate ((ClusterBitmap.new total).bitmap.length) (0 : Nat)).length := by
    have : (ClusterBitmap.new total).bitmap.length = (total + 7) / 8 := by
      unfold ClusterBitmap.new
      exact List.length_replicate ..
    simp only [List.length_replicate, this]
    omega
  rw [buildFold_bmTestBit fat (total - 2) 2 _ hlen C]
  have hz : ∀ c, bmTestBit
      (List.replicate ((ClusterBitmap.new total).bitmap.length) (0 : Nat)) c = false := by
    intro c
    unfold bmTestBit
    rw [getD_replicate_zero]
    exact Nat.zero_testBit _
  rw [hz]
  by_cases htot2 : 2 ≤ total
  · have : 2 + (total - 2) = total := by omega
    rw [this]
    rfl
  · rw [if_neg (show ¬(2 ≤ C ∧ C < 2 + (total - 2)) by omega),
      if_neg (show ¬(RESERVED_FAT_ENTRIES ≤ C ∧ C < total) by
        simp only [RESERVED_FAT_ENTRIES]
        omega)]

/-- C1 (amended): after `ClusterBitmap::new(total)` followed by
`build_from_fat` over a FAT with `total` clusters, for every cluster C with
`RESERVED_FAT_ENTRIES <= C < total` the bitmap reports C free iff the FAT
entry of C is `Free`; the reserved clusters 0 and 1 are not scanned and the
bitmap always reports them free, regardless of their FAT entries. -/
theorem buildFromFat_isFree_iff (fat : Nat → FatValue) (total C : Nat)
    (hC : C < total) :
    (RESERVED_FAT_ENTRIES ≤ C →
      ((((ClusterBitmap.new total).buildFromFat fat total).isFree C) = true ↔
        fat C = .free)) ∧
    (C < RESERVED_FAT_ENTRIES →
      (((ClusterBitmap.new total).buildFromFat fat total).isFree C) = true) := by
  have htc : (((ClusterBitmap.new total).buildFromFat fat total)).totalClusters = total := by
    rw [buildFromFat_totalClusters]
    rfl
  have hC' : C < (((ClusterBitmap.new total).buildFromFat fat total)).totalClusters := by
    rw [htc]
    exact hC
  have hfree : (((ClusterBitmap.new total).buildFromFat fat total)).isFree C =
      !bmTestBit (((ClusterBitmap.new total).buildFromFat fat total)).bitmap C :=
    isFree_eq_not_bmTestBit _ _ hC'
  rw [hfree, buildFromFat_bmTestBit fat total C (by omega)]
  constructor
  · intro h2
    rw [if_pos ⟨h2, hC⟩]
    by_cases hf : fat C = .free
    · simp [hf]
    · simp [hf]
  · intro h2
    rw [if_neg (by omega)]
    rfl

/-- Witness for C1: the amended equivalence applied to a concrete all-free
FAT with 5 clusters at cluster 2. -/
theorem buildFromFat_isFree_iff_witness :
    (RESERVED_FAT_ENTRIES ≤ 2 →
      ((((ClusterBitmap.new 5).buildFromFat (fun _ => FatValue.free) 5).isFree 2) = true ↔
        (fun _ => FatValue.free) 2 = FatValue.free)) ∧
    (2 < RESERVED_FAT_ENTRIES →
      (((ClusterBitmap.new 5).buildFromFat (fun _ => FatValue.free) 5).isFree 2) = true) :=
  buildFromFat_isFree_iff (fun _ => FatValue.free) 5 2 (by decide)

/-- C1 counterexample: on a FAT table whose entry 0 is `EndOfChain` (non-Free,
as reserved FAT entries are in practice), after `build_from_fat` the bitmap
still reports cluster 0 as free: `is_free(0) = true` while `FAT(0) != Free`,
so the claimed equivalence does not include the reserved clusters. -/
theorem buildFromFat_reserved_cluster_cex :
    (((ClusterBitmap.new 3).buildFromFat (fun _ => FatValue.endOfChain) 3).isFree 0) = true ∧
      (fun _ => FatValue.endOfChain) 0 ≠ FatValue.free := by
  constructor
  · decide
  · decide

/-- A mutating bitmap call: `set_allocated` or `set_free`. -/
inductive BitmapOp where
  | setAllocated (cluster : Nat)
  | setFree (cluster : Nat)
  deriving DecidableEq, Repr

/-- Apply one bitmap call. -/
def ClusterBitmap.applyBitmapOp (b : ClusterBitmap) : BitmapOp → ClusterBitmap
  | .setAllocated c => b.setAllocated c
  | .setFree c => b.setFree c

/-- Run a sequence of bitmap calls from `ClusterBitmap::new(total)`. -/
def execBitmapOps (total : Nat) (ops : List BitmapOp) : ClusterBitmap :=
  ops.foldl ClusterBitmap.applyBitmapOp (ClusterBitmap.new total)

theorem setAllocated_totalClusters (b : ClusterBitmap) (c : Nat) :
    (b.setAllocated c).totalClusters = b.totalClusters := by
  unfold ClusterBitmap.setAllocated
  by_cases h : b.totalClusters ≤ c <;> simp [h]

theorem setFree_totalClusters (b : ClusterBitmap) (c : Nat) :
    (b.setFree c).totalClusters = b.totalClusters := by
  unfold ClusterBitmap.setFree
  by_cases h : b.totalClusters ≤ c <;> simp [h]

theorem setAllocated_isFree (b : ClusterBitmap) (c : Nat)
    (hlen : (b.totalClusters + 7) / 8 ≤ b.bitmap.length)
    (hc : c < b.totalClusters) (c' : Nat) :
    (b.setAllocated c).isFree c' = (b.isFree c' && !decide (c' = c)) := by
  have hidx : c / 8 < b.bitmap.length := by omega
  have hbmR : (b.setAllocated c).bitmap = b.bitmap.set (c / 8)
      ((b.bitmap.getD (c / 8) 0) ||| (1 <<< (c % 8))) := by
    unfold ClusterBitmap.setAllocated
    rw [if_neg (by omega)]
  have htcR : (b.setAllocated c).totalClusters = b.totalClusters :=
    setAllocated_totalClusters b c
  by_cases hc' : c' < b.totalClusters
  · rw [isFree_eq_not_bmTestBit _ _ (show c' < (b.setAllocated c).totalClusters by
      rw [htcR]; exact hc')]
    rw [isFree_eq_not_bmTestBit b c' hc']
    rw [hbmR, bmTestBit_setBitOr _ _ _ hidx, Bool.not_or]
  · have h1 : (b.setAllocated c).isFree c' = false := by
      unfold ClusterBitmap.isFree
      rw [if_pos (by rw [htcR]; omega)]
    have h2 : b.isFree c' = false := by
      unfold ClusterBitmap.isFree
      rw [if_pos (by omega)]
    rw [h1, h2, Bool.false_and]

theorem setFree_isFree (b : ClusterBitmap) (c : Nat)
    (hlen : (b.totalClusters + 7) / 8 ≤ b.bitmap.length)
    (hc : c < b.totalClusters) (c' : Nat) :
    (b.setFree c).isFree c' = (b.isFree c' || decide (c' = c)) := by
  have hidx : c / 8 < b.bitmap.length := by omega
  have hbmR : (b.setFree c).bitmap = b.bitmap.set (c / 8)
      ((b.bitmap.getD (c / 8) 0) &&& (255 ^^^ (1 <<< (c % 8)))) := by
    unfold ClusterBitmap.setFree
    rw [if_neg (by omega)]
  have htcR : (b.setFree c).totalClusters = b.totalClusters :=
    setFree_totalClusters b c
  by_cases hc' : c' < b.totalClusters
  · rw [isFree_eq_not_bmTestBit _ _ (show c' < (b.setFree c).totalClusters by
      rw [htcR]; exact hc')]
    rw [isFree_eq_not_bmTestBit b c' hc']
    rw [hbmR, bmTestBit_setBitClear _ _ _ hidx]
    cases hb : bmTestBit b.bitmap c' <;> cases hd : decide (c' = c) <;> simp
  · have h1 : (b.setFree c).isFree c' = false := by
      unfold ClusterBitmap.isFree
      rw [if_pos (by rw [htcR]; omega)]
    have h2 : b.isFree c' = false := by
      unfold ClusterBitmap.isFree
      rw [if_pos (by omega)]
    have h3 : decide (c' = c) = false := by
      simp only [decide_eq_false_iff_not]
      omega
    rw [h1, h2, h3, Bool.or_false]

theorem card_filter_and_ne (n c : Nat) (f : Nat → Bool) (hc : c < n)
    (hf : f c = true) :
    ((Finset.range n).filter (fun x => (f x && !decide (x = c)) = true)).card + 1 =
      ((Finset.range n).filter (fun x => f x = true)).card := by
  have hset : (Finset.range n).filter (fun x => (f x && !decide (x = c)) = true) =
      ((Finset.range n).filter (fun x => f x = true)).erase c := by
    ext x
    simp only [Finset.mem_filter, Finset.mem_erase, Finset.mem_range,
      Bool.and_eq_true, Bool.not_eq_eq_eq_not, Bool.not_true,
      decide_eq_false_iff_not]
    tauto
  have hmem : c ∈ (Finset.range n).filter (fun x => f x = true) := by
    simp [Finset.mem_filter, Finset.mem_range, hc, hf]
  rw [hset, Finset.card_erase_of_mem hmem]
  have hpos : 0 < ((Finset.range n).filter (fun x => f x = true)).card :=
    Finset.card_pos.mpr ⟨c, hmem⟩
  omega

theorem card_filter_and_ne_of_false (n c : Nat) (f : Nat → Bool)
    (hf : f c = false) :
    ((Finset.range n).filter (fun x => (f x && !decide (x = c)) = true)).card =
      ((Finset.range n).filter (fun x => f x = true)).card := by
  apply congrArg Finset.card
  apply Finset.filter_congr
  intro x _
  by_cases hxc : x = c
  · subst hxc
    simp [hf]
  · simp [hxc]

theorem card_filter_or_eq (n c : Nat) (f : Nat → Bool) (hc : c < n)
    (hf : f c = false) :
    ((Finset.range n).filter (fun x => (f x || decide (x = c)) = true)).card =
      ((Finset.range n).filter (fun x => f x = true)).card + 1 := by
  have hset : (Finset.range n).filter (fun x => (f x || decide (x = c)) = true) =
      insert c ((Finset.range n).filter (fun x => f x = true)) := by
    ext x
    simp only [Finset.mem_filter, Finset.mem_insert, Finset.mem_range,
      Bool.or_eq_true, decide_eq_true_eq]
    constructor
    · rintro ⟨hx, hfx | hxc⟩
      · exact Or.inr ⟨hx, hfx⟩
      · exact Or.inl hxc
    · rintro (hxc | ⟨hx, hfx⟩)
      · exact ⟨hxc ▸ hc, Or.inr hxc⟩
      · exact ⟨hx, Or.inl hfx⟩
  have hnot : c ∉ (Finset.range n).filter (fun x => f x = true) := by
    simp [Finset.mem_filter, hf]
  rw [hset, Finset.card_insert_of_not_mem hnot]

theorem card_filter_or_eq_of_true (n c : Nat) (f : Nat → Bool)
    (hf : f c = true) :
    ((Finset.range n).filter (fun x => (f x || decide (x = c)) = true)).card =
      ((Finset.range n).filter (fun x => f x = true)).card := by
  apply congrArg Finset.card
  apply Finset.filter_congr
  intro x _
  by_cases hxc : x = c
  · subst hxc
    simp [hf]
  · simp [hxc]

/-- Invariant tying the cached `free_count` to the number of clear bits. -/
def BitmapInv (total : Nat) (b : ClusterBitmap) : Prop :=
  b.totalClusters = total ∧ (total + 7) / 8 ≤ b.bitmap.length ∧
    b.freeCount = b.countFreeBelow

theorem isFree_new (total c : Nat) (hc : c < total) :
    (ClusterBitmap.new total).isFree c = true := by
  unfold ClusterBitmap.isFree ClusterBitmap.new
  rw [if_neg (by simpa using by omega)]
  rw [getD_replicate_zero, Nat.zero_and]
  rfl

theorem bitmapInv_new (total : Nat) : BitmapInv total (ClusterBitmap.new total) := by
  refine ⟨rfl, ?_, ?_⟩
  · unfold ClusterBitmap.new
    simp
  · show total = (ClusterBitmap.new total).countFreeBelow
    unfold ClusterBitmap.countFreeBelow
    have htc : (ClusterBitmap.new total).totalClusters = total := rfl
    rw [htc]
    rw [Finset.filter_true_of_mem (fun x hx =>
      isFree_new total x (Finset.mem_range.mp hx))]
    rw [Finset.card_range]

theorem countFreeBelow_le (b : ClusterBitmap) : b.countFreeBelow ≤ b.totalClusters := by
  unfold ClusterBitmap.countFreeBelow
  calc ((Finset.range b.totalClusters).filter _).card
      ≤ (Finset.range b.totalClusters).card := Finset.card_filter_le _ _
    _ = b.totalClusters := Finset.card_range _

theorem bitmapInv_step (total : Nat) (htot : total < 2 ^ 32) (b : ClusterBitmap)
    (hb : BitmapInv total b) (op : BitmapOp) :
    BitmapInv total (b.applyBitmapOp op) := by
  obtain ⟨htc, hlen, hcount⟩ := hb
  cases op with
  | setAllocated c =>
    show BitmapInv total (b.setAllocated c)
    by_cases hc : b.totalClusters ≤ c
    · have hfix : b.setAllocated c = b := by
        unfold ClusterBitmap.setAllocated
        rw [if_pos hc]
      rw [hfix]
      exact ⟨htc, hlen, hcount⟩
    · have hc' : c < b.totalClusters := by omega
      have hlen' : (total + 7) / 8 ≤ (b.setAllocated c).bitmap.length := by
        unfold ClusterBitmap.setAllocated
        rw [if_neg hc]
        simpa using hlen
      have hcnt' : (b.setAllocated c).countFreeBelow =
          ((Finset.range total).filter
            (fun x => (b.isFree x && !decide (x = c)) = true)).card := by
        unfold ClusterBitmap.countFreeBelow
        rw [setAllocated_totalClusters, htc]
        apply congrArg Finset.card
        apply Finset.filter_congr
        intro x _
        rw [setAllocated_isFree b c (htc ▸ hlen) hc' x]
      refine ⟨by rw [setAllocated_totalClusters, htc], hlen', ?_⟩
      have hfc : (b.setAllocated c).freeCount =
          if b.isFree c then b.freeCount - 1 else b.freeCount := by
        unfold ClusterBitmap.setAllocated
        rw [if_neg hc]
      by_cases hfree : b.isFree c = true
      · have hcard := card_filter_and_ne total c (fun x => b.isFree x)
          (by omega) hfree
        beta_reduce at hcard
        rw [hfc, if_pos hfree, hcnt', hcount]
        unfold ClusterBitmap.countFreeBelow
        rw [htc]
        omega
      · have hfree' : b.isFree c = false := by
          cases hh : b.isFree c
          · rfl
          · exact absurd hh hfree
        have hcard := card_filter_and_ne_of_false total c (fun x => b.isFree x) hfree'
        beta_reduce at hcard
        rw [hfc, if_neg (by simp [hfree']), hcnt', hcount]
        unfold ClusterBitmap.countFreeBelow
        rw [htc]
        omega
  | setFree c =>
    show BitmapInv total (b.setFree c)
    by_cases hc : b.totalClusters ≤ c
    · have hfix : b.setFree c = b := by
        unfold ClusterBitmap.setFree
        rw [if_pos hc]
      rw [hfix]
      exact ⟨htc, hlen, hcount⟩
    · have hc' : c < b.totalClusters := by omega
      have hlen' : (total + 7) / 8 ≤ (b.setFree c).bitmap.length := by
        unfold ClusterBitmap.setFree
        rw [if_neg hc]
        simpa using hlen
      have hcnt' : (b.setFree c).countFreeBelow =
          ((Finset.range total).filter
            (fun x => (b.isFree x || decide (x = c)) = true)).card := by
        unfold ClusterBitmap.countFreeBelow
        rw [setFree_totalClusters, htc]
        apply congrArg Finset.card
        apply Finset.filter_congr
        intro x _
        rw [setFree_isFree b c (htc ▸ hlen) hc' x]
      refine ⟨by rw [setFree_totalClusters, htc], hlen', ?_⟩
      have hfc : (b.setFree c).freeCount =
          if b.isAllocated c then min (b.freeCount + 1) (2 ^ 32 - 1)
          else b.freeCount := by
        unfold ClusterBitmap.setFree
        rw [if_neg hc]
      by_cases hfree : b.isFree c = true
      · have hall : b.isAllocated c = false := by
          unfold ClusterBitmap.isAllocated
          rw [hfree]
          rfl
        have hcard := card_filter_or_eq_of_true total c (fun x => b.isFree x) hfree
        beta_reduce at hcard
        rw [hfc, if_neg (by simp [hall]), hcnt', hcount]
        unfold ClusterBitmap.countFreeBelow
        rw [htc]
        omega
      · have hfree' : b.isFree c = false := by
          cases hh : b.isFree c
          · rfl
          · exact absurd hh hfree
        have hall : b.isAllocated c = true := by
          unfold ClusterBitmap.isAllocated
          rw [hfree']
          rfl
        have hcard := card_filter_or_eq total c (fun x => b.isFree x)
          (by omega) hfree'
        beta_reduce at hcard
        have hlt : b.countFreeBelow < total := by
          have hsub : (Finset.range b.totalClusters).filter
              (fun x => b.isFree x = true) ⊆ (Finset.range total).erase c := by
            intro x hx
            rw [Finset.mem_filter] at hx
            rw [Finset.mem_erase]
            refine ⟨?_, by rw [← htc]; exact hx.1⟩
            intro hxc
            subst hxc
            rw [hx.2] at hfree'
            exact Bool.true_eq_false.mp hfree'
          have := Finset.card_le_card hsub
          unfold ClusterBitmap.countFreeBelow
          rw [Finset.card_erase_of_mem (Finset.mem_range.mpr (by omega))] at this
      -- this : card ≤ total - 1
          rw [Finset.card_range] at this
          omega
        have hmin : min (b.freeCount + 1) (2 ^ 32 - 1) = b.freeCount + 1 := by
          have h1 : b.freeCount + 1 ≤ 2 ^ 32 - 1 := by
            rw [hcount]
            omega
          exact Nat.min_eq_left h1
        rw [hfc, if_pos hall, hmin, hcnt', hcount]
        unfold ClusterBitmap.countFreeBelow
        rw [htc]
        omega

theorem bitmapInv_exec (total : Nat) (htot : total < 2 ^ 32)
    (ops : List BitmapOp) : BitmapInv total (execBitmapOps total ops) := by
  unfold execBitmapOps
  suffices h : ∀ (b : ClusterBitmap), BitmapInv total b →
      BitmapInv total (ops.foldl ClusterBitmap.applyBitmapOp b) from
    h _ (bitmapInv_new total)
  induction ops with
  | nil => intro b hb; exact hb
  | cons op rest ih =>
    intro b hb
    rw [List.foldl_cons]
    exact ih _ (bitmapInv_step total htot b hb op)

/-- C10 (amended): for every state reachable from `ClusterBitmap::new(total)`
(with `total` a valid `u32` cluster count) by any sequence of `set_allocated`
and `set_free` calls, `free_count()` equals the number of clusters below
`total` whose bitmap bit is clear, and `set_allocated`/`set_free` on a
cluster number `>= total` return with the bitmap, free count and hint
unchanged.  (`build_from_fat` is excluded: it breaks the equality, see the
counterexample.) -/
theorem bitmap_free_count_invariant (total : Nat) (htot : total < 2 ^ 32)
    (ops : List BitmapOp) :
    (execBitmapOps total ops).free_count = (execBitmapOps total ops).countFreeBelow ∧
    ∀ c, total ≤ c →
      (execBitmapOps total ops).setAllocated c = execBitmapOps total ops ∧
      (execBitmapOps total ops).setFree c = execBitmapOps total ops := by
  obtain ⟨htc, _, hcount⟩ := bitmapInv_exec total htot ops
  refine ⟨hcount, fun c hcge => ⟨?_, ?_⟩⟩
  · unfold ClusterBitmap.setAllocated
    rw [if_pos (by rw [htc]; exact hcge)]
  · unfold ClusterBitmap.setFree
    rw [if_pos (by rw [htc]; exact hcge)]

/-- Witness for C10: the invariant applied to a concrete bitmap history. -/
theorem bitmap_free_count_invariant_witness :
    (execBitmapOps 10 [BitmapOp.setAllocated 3]).free_count =
      (execBitmapOps 10 [BitmapOp.setAllocated 3]).countFreeBelow ∧
    ∀ c, 10 ≤ c →
      (execBitmapOps 10 [BitmapOp.setAllocated 3]).setAllocated c =
        execBitmapOps 10 [BitmapOp.setAllocated 3] ∧
      (execBitmapOps 10 [BitmapOp.setAllocated 3]).setFree c =
        execBitmapOps 10 [BitmapOp.setAllocated 3] :=
  bitmap_free_count_invariant 10 (by norm_num) [BitmapOp.setAllocated 3]

/-- C10 counterexample: the claim as stated also admits `build_from_fat` in
the reachable set, but after `build_from_fat` on an all-free 3-cluster FAT the
cached free count is 1 (only scanned clusters are counted) while 3 clusters
below `total` have clear bits. -/
theorem bitmap_free_count_build_cex :
    ((ClusterBitmap.new 3).buildFromFat (fun _ => FatValue.free) 3).free_count = 1 ∧
      ((ClusterBitmap.new 3).buildFromFat (fun _ => FatValue.free) 3).countFreeBelow = 3 := by
  constructor <;> decide

/-! ## Multi-cluster batched I/O (`src/fatrs/src/multi_cluster_io.rs`)

The chain iterator (`fs.cluster_iter(n).next()`) is modelled from the spec
(§4.7, `fs.rs`/`table.rs` are not under src/): a `Data(next)` entry yields the
successor, `EndOfChain` ends the iteration, and any other entry
(`Free`/`Bad`/`Reserved`) is a `CorruptedFileSystem` error.  Volume geometry
(`offset_from_cluster`, cluster size) is likewise modelled from the spec
(§3): data clusters start at 2 and occupy `cluster_size` bytes each from the
data-region offset. -/

/-- One step of the cluster chain iterator.  Modelled from the spec (§4.7). -/
def chainNext (fat : Nat → FatValue) (cluster : Nat) : Option (Except Unit Nat) :=
  match fat cluster with
  | .data next => some (.ok next)
  | .endOfChain => none
  | _ => some (.error ())

/-- Modelled from the spec: byte offset of a data cluster
(data-region offset + (cluster − 2) × cluster size). -/
def offset_from_cluster (dataStart clusterSize cluster : Nat) : Nat :=
  dataStart + (cluster - RESERVED_FAT_ENTRIES) * clusterSize

/-- `MAX_CONTIGUOUS_BATCH` from multi_cluster_io.rs. -/
def MAX_CONTIGUOUS_BATCH : Nat := 256

/-- The `while` loop of `check_contiguous_run`, with an explicit fuel that is
never exhausted before the loop guard fails (the guard bounds `count` by
`MAX_CONTIGUOUS_BATCH`; the initial fuel equals that bound). -/
def checkRunGo (fat : Nat → FatValue) (maxClusters : Nat) :
    Nat → Nat → Nat → Except Unit Nat
  | 0, count, _ => .ok count
  | fuel + 1, count, current =>
    if count < maxClusters ∧ count < MAX_CONTIGUOUS_BATCH then
      match chainNext fat current with
      | some (.ok next) =>
        if next = current + 1 then checkRunGo fat maxClusters fuel (count + 1) next
        else .ok count
      | some (.error _) => .error ()
      | none => .ok count
    else .ok count

/-- `check_contiguous_run` from multi_cluster_io.rs: count how many clusters
starting at `startCluster` are linked sequentially, bounded by the requested
maximum and the batch cap. -/
def check_contiguous_run (fat : Nat → FatValue) (startCluster maxClusters : Nat) :
    Except Unit Nat :=
  checkRunGo fat maxClusters MAX_CONTIGUOUS_BATCH 1 startCluster

/-- `clusters_needed` from multi_cluster_io.rs (`div_ceil`). -/
def clusters_needed (bytes clusterSize : Nat) : Nat :=
  (bytes + clusterSize - 1) / clusterSize

/-- Description of the single fused transfer issued by
`read_contiguous`/`write_contiguous`: absolute byte offset, transfer size and
the contiguous run length it was computed from. -/
structure ContigIo where
  offsetInFs : Nat
  size : Nat
  runLen : Nat
  deriving DecidableEq, Repr

/-- `read_contiguous` from multi_cluster_io.rs: the offset/size of the single
fused device read (the device may return fewer bytes; the transfer never
exceeds `size`). -/
def read_contiguous (fat : Nat → FatValue) (dataStart clusterSize : Nat)
    (startCluster offsetInCluster bufLen : Nat) : Except Unit ContigIo :=
  let bytesFromFirstCluster := clusterSize - offsetInCluster
  let remainingBytes := bufLen - bytesFromFirstCluster
  let additionalClusters := clusters_needed remainingBytes clusterSize
  let totalClustersNeeded := 1 + additionalClusters
  match check_contiguous_run fat startCluster totalClustersNeeded with
  | .error e => .error e
  | .ok contiguousCount =>
    let maxBytes := if contiguousCount = 1 then bytesFromFirstCluster
      else bytesFromFirstCluster + (contiguousCount - 1) * clusterSize
    let readSize := min bufLen maxBytes
    .ok ⟨offset_from_cluster dataStart clusterSize startCluster + offsetInCluster,
         readSize, contiguousCount⟩

/-- `write_contiguous` from multi_cluster_io.rs: the offset/size of the single
fused device write (the write loop transfers exactly `size` bytes or fails
with `WriteZero`). -/
def write_contiguous (fat : Nat → FatValue) (dataStart clusterSize : Nat)
    (startCluster offsetInCluster bufLen : Nat) : Except Unit ContigIo :=
  let bytesInFirstCluster := clusterSize - offsetInCluster
  let remainingBytes := bufLen - bytesInFirstCluster
  let additionalClusters := clusters_needed remainingBytes clusterSize
  let totalClustersNeeded := 1 + additionalClusters
  match check_contiguous_run fat startCluster totalClustersNeeded with
  | .error e => .error e
  | .ok contiguousCount =>
    let maxBytes := if contiguousCount = 1 then bytesInFirstCluster
      else bytesInFirstCluster + (contiguousCount - 1) * clusterSize
    let writeSize := min bufLen maxBytes
    .ok ⟨offset_from_cluster dataStart clusterSize startCluster + offsetInCluster,
         writeSize, contiguousCount⟩

theorem checkRunGo_spec (fat : Nat → FatValue) (maxClusters : Nat) (fuel : Nat) :
    ∀ (count current n : Nat),
    checkRunGo fat maxClusters fuel count current = .ok n →
    count ≤ n ∧ (n = count ∨ (n ≤ maxClusters ∧ n ≤ MAX_CONTIGUOUS_BATCH)) ∧
    (∀ j, j < n - count → fat (current + j) = .data (current + j + 1)) := by
  induction fuel with
  | zero =>
    intro count current n h
    injection h with h
    subst h
    exact ⟨le_refl _, Or.inl rfl, fun j hj => absurd hj (by omega)⟩
  | succ fuel ih =>
    intro count current n h
    unfold checkRunGo at h
    by_cases hcond : count < maxClusters ∧ count < MAX_CONTIGUOUS_BATCH
    · rw [if_pos hcond] at h
      cases hnext : chainNext fat current with
      | none =>
        rw [hnext] at h
        injection h with h
        subst h
        exact ⟨le_refl _, Or.inl rfl, fun j hj => absurd hj (by omega)⟩
      | some r =>
        cases r with
        | error e =>
          rw [hnext] at h
          exact absurd h (by simp)
        | ok next =>
          rw [hnext] at h
          have h : (if next = current + 1 then
              checkRunGo fat maxClusters fuel (count + 1) next
            else Except.ok count) = Except.ok n := h
          by_cases hseq : next = current + 1
          · rw [if_pos hseq] at h
            obtain ⟨h1, h2, h3⟩ := ih (count + 1) next n h
            subst hseq
            refine ⟨by omega, ?_, ?_⟩
            · rcases h2 with h2 | h2
              · right
                omega
              · exact Or.inr h2
            · intro j hj
              cases j with
              | zero =>
                have hgoal : fat current = FatValue.data (current + 1) := by
                  unfold chainNext at hnext
                  cases hf : fat current <;> rw [hf] at hnext
                  case data nx =>
                    have h5 : some (Except.ok nx) = some (Except.ok (current + 1)) := hnext
                    injection h5 with hx
                    injection hx with hy
                    rw [hy]
                  all_goals simp at hnext
                simpa using hgoal
              | succ j =>
                have hstep := h3 j (by omega)
                have harr : current + 1 + j = current + (j + 1) := by omega
                rw [harr] at hstep
                exact hstep
          · rw [if_neg hseq] at h
            injection h with h
            subst h
            exact ⟨le_refl _, Or.inl rfl, fun j hj => absurd hj (by omega)⟩
    · rw [if_neg hcond] at h
      injection h with h
      subst h
      exact ⟨le_refl _, Or.inl rfl, fun j hj => absurd hj (by omega)⟩

/-- C9 (amended): for a requested maximum of at least 1,
`check_contiguous_run` returns a count n with 1 ≤ n ≤ min(max, 256) such that
the FAT links clusters start, start+1, …, start+n−1 consecutively; the fused
byte ranges computed by `read_contiguous` and `write_contiguous` lie entirely
within the n clusters of their run. -/
theorem contiguous_run_spec (fat : Nat → FatValue) (dataStart clusterSize : Nat)
    (startCluster offsetInCluster bufLen maxClusters n : Nat)
    (hmax : 1 ≤ maxClusters) (hoff : offsetInCluster < clusterSize) :
    (check_contiguous_run fat startCluster maxClusters = .ok n →
      1 ≤ n ∧ n ≤ min maxClusters MAX_CONTIGUOUS_BATCH ∧
      (∀ j, j < n - 1 → fat (startCluster + j) = .data (startCluster + j + 1))) ∧
    (∀ io, read_contiguous fat dataStart clusterSize startCluster offsetInCluster
        bufLen = .ok io →
      io.offsetInFs + io.size ≤
        offset_from_cluster dataStart clusterSize startCluster +
          io.runLen * clusterSize) ∧
    (∀ io, write_contiguous fat dataStart clusterSize startCluster offsetInCluster
        bufLen = .ok io →
      io.offsetInFs + io.size ≤
        offset_from_cluster dataStart clusterSize startCluster +
          io.runLen * clusterSize) := by
  refine ⟨?_, ?_, ?_⟩
  · intro h
    obtain ⟨h1, h2, h3⟩ := checkRunGo_spec fat maxClusters MAX_CONTIGUOUS_BATCH 1
      startCluster n h
    refine ⟨h1, ?_, fun j hj => h3 j (by omega)⟩
    rcases h2 with h2 | h2
    · subst h2
      simp only [le_min_iff]
      exact ⟨hmax, by norm_num [MAX_CONTIGUOUS_BATCH]⟩
    · simp only [le_min_iff]
      exact ⟨h2.1, h2.2⟩
  · intro io h
    simp only [read_contiguous] at h
    cases hrun : check_contiguous_run fat startCluster
        (1 + clusters_needed (bufLen - (clusterSize - offsetInCluster)) clusterSize) with
    | error e =>
      rw [hrun] at h
      simp at h
    | ok m =>
      rw [hrun] at h
      have h2 : Except.ok (ContigIo.mk
          (offset_from_cluster dataStart clusterSize startCluster + offsetInCluster)
          (min bufLen (if m = 1 then clusterSize - offsetInCluster
            else clusterSize - offsetInCluster + (m - 1) * clusterSize)) m) =
          Except.ok io := h
      injection h2 with h2
      have hm1 : 1 ≤ m := (checkRunGo_spec fat _ _ 1 startCluster m hrun).1
      rw [← h2]
      show offset_from_cluster dataStart clusterSize startCluster + offsetInCluster +
          (min bufLen (if m = 1 then clusterSize - offsetInCluster
            else clusterSize - offsetInCluster + (m - 1) * clusterSize)) ≤
          offset_from_cluster dataStart clusterSize startCluster + m * clusterSize
      by_cases hm : m = 1
      · subst hm
        rw [if_pos rfl]
        have hmin : min bufLen (clusterSize - offsetInCluster) ≤
            clusterSize - offsetInCluster := min_le_right _ _
        omega
      · rw [if_neg hm]
        have hmin : min bufLen (clusterSize - offsetInCluster + (m - 1) * clusterSize) ≤
            clusterSize - offsetInCluster + (m - 1) * clusterSize := min_le_right _ _
        have hexp : (m - 1) * clusterSize + clusterSize = m * clusterSize := by
          have hm2 : m - 1 + 1 = m := by omega
          calc (m - 1) * clusterSize + clusterSize = (m - 1 + 1) * clusterSize := by ring
            _ = m * clusterSize := by rw [hm2]
        omega
  · intro io h
    simp only [write_contiguous] at h
    cases hrun : check_contiguous_run fat startCluster
        (1 + clusters_needed (bufLen - (clusterSize - offsetInCluster)) clusterSize) with
    | error e =>
      rw [hrun] at h
      simp at h
    | ok m =>
      rw [hrun] at h
      have h2 : Except.ok (ContigIo.mk
          (offset_from_cluster dataStart clusterSize startCluster + offsetInCluster)
          (min bufLen (if m = 1 then clusterSize - offsetInCluster
            else clusterSize - offsetInCluster + (m - 1) * clusterSize)) m) =
          Except.ok io := h
      injection h2 with h2
      have hm1 : 1 ≤ m := (checkRunGo_spec fat _ _ 1 startCluster m hrun).1
      rw [← h2]
      show offset_from_cluster dataStart clusterSize startCluster + offsetInCluster +
          (min bufLen (if m = 1 then clusterSize - offsetInCluster
            else clusterSize - offsetInCluster + (m - 1) * clusterSize)) ≤
          offset_from_cluster dataStart clusterSize startCluster + m * clusterSize
      by_cases hm : m = 1
      · subst hm
        rw [if_pos rfl]
        have hmin : min bufLen (clusterSize - offsetInCluster) ≤
            clusterSize - offsetInCluster := min_le_right _ _
        omega
      · rw [if_neg hm]
        have hmin : min bufLen (clusterSize - offsetInCluster + (m - 1) * clusterSize) ≤
            clusterSize - offsetInCluster + (m - 1) * clusterSize := min_le_right _ _
        have hexp : (m - 1) * clusterSize + clusterSize = m * clusterSize := by
          have hm2 : m - 1 + 1 = m := by omega
          calc (m - 1) * clusterSize + clusterSize = (m - 1 + 1) * clusterSize := by ring
            _ = m * clusterSize := by rw [hm2]
        omega

/-- Witness for C9: the amended theorem applied to a concrete 3-cluster
contiguous chain (2 → 3 → 4 → end). -/
theorem contiguous_run_spec_witness :
    (check_contiguous_run
        (fun c => if c < 4 then FatValue.data (c + 1) else FatValue.endOfChain)
        2 2 = .ok 2 →
      1 ≤ 2 ∧ 2 ≤ min 2 MAX_CONTIGUOUS_BATCH ∧
      (∀ j, j < 2 - 1 →
        (fun c => if c < 4 then FatValue.data (c + 1) else FatValue.endOfChain)
          (2 + j) = .data (2 + j + 1))) ∧
    (∀ io, read_contiguous
        (fun c => if c < 4 then FatValue.data (c + 1) else FatValue.endOfChain)
        1024 512 2 10 900 = .ok io →
      io.offsetInFs + io.size ≤
        offset_from_cluster 1024 512 2 + io.runLen * 512) ∧
    (∀ io, write_contiguous
        (fun c => if c < 4 then FatValue.data (c + 1) else FatValue.endOfChain)
        1024 512 2 10 900 = .ok io →
      io.offsetInFs + io.size ≤
        offset_from_cluster 1024 512 2 + io.runLen * 512) :=
  contiguous_run_spec
    (fun c => if c < 4 then FatValue.data (c + 1) else FatValue.endOfChain)
    1024 512 2 10 900 2 2 (by norm_num) (by norm_num)

/-- C9 counterexample: with a requested maximum of 0 the run counter starts at
1 and the loop guard fails immediately, so `check_contiguous_run` returns 1,
exceeding min(0, 256) = 0. -/
theorem check_contiguous_run_zero_max_cex :
    check_contiguous_run (fun _ => FatValue.endOfChain) 5 0 = .ok 1 ∧
      ¬(1 ≤ min 0 MAX_CONTIGUOUS_BATCH) := by
  constructor
  · rfl
  · decide

/-! ## File handle seek (`src/fatrs/src/file.rs`, `File::seek`)

`clusters_from_bytes` / `bytes_from_clusters` are modelled from the spec
(§4.11, `fs.rs` is not under src/): the number of clusters needed for a byte
count is the ceiling division by the cluster size, and the byte count of `k`
clusters is `k × cluster_size`.  The build without `cluster-checkpoints` is
embedded (the chain walk starts at the first cluster). -/

/-- The seek-relevant state of a `FileContext` from file.rs: position,
current/first cluster, and the size recorded in the directory-entry editor
(`None` when the handle has no entry, e.g. the root directory). -/
structure FileContext where
  firstCluster : Option Nat
  currentCluster : Option Nat
  offset : Nat
  entrySize : Option Nat
  deriving DecidableEq, Repr

/-- `SeekFrom` from the io module. -/
inductive SeekFrom where
  | start (x : Nat)
  | current (x : Int)
  | fromEnd (o : Int)
  deriving DecidableEq, Repr

/-- Error kinds surfaced by `File::seek`. -/
inductive FsError where
  | invalidInput
  | corrupted
  deriving DecidableEq, Repr

/-- Modelled from the spec: `clusters_from_bytes` (ceiling division by the
cluster size). -/
def clusters_from_bytes (clusterSize bytes : Nat) : Nat :=
  (bytes + clusterSize - 1) / clusterSize

/-- Modelled from the spec: `bytes_from_clusters`. -/
def bytes_from_clusters (clusterSize clusters : Nat) : Nat :=
  clusters * clusterSize

/-- The `new_offset_opt` computation of `File::seek` (file.rs lines 818-826):
resolve the absolute target, `None` when it is negative or not representable
as `u32`. -/
def resolveSeekOffset (ctx : FileContext) (pos : SeekFrom) : Option Nat :=
  match pos with
  | .start x => if x < 2 ^ 32 then some x else none
  | .current x =>
    let n : Int := (ctx.offset : Int) + x
    if 0 ≤ n ∧ n < 2 ^ 32 then some n.toNat else none
  | .fromEnd o =>
    match ctx.entrySize with
    | some s =>
      let n : Int := (s : Int) + o
      if 0 ≤ n ∧ n < 2 ^ 32 then some n.toNat else none
    | none => none

/-- The chain walk of `File::seek`: attempt the loop indices `i, i+1, …` for
`rem` remaining steps from `cluster`; `.inl final` when all steps succeed,
`.inr (i, last)` when the chain ends at loop index `i` (the `break` case). -/
def walkChain (fat : Nat → FatValue) : Nat → Nat → Nat → Except Unit (Nat ⊕ (Nat × Nat))
  | cluster, _, 0 => .ok (.inl cluster)
  | cluster, i, rem + 1 =>
    match chainNext fat cluster with
    | some (.ok next) => walkChain fat next (i + 1) rem
    | some (.error _) => .error ()
    | none => .ok (.inr (i, cluster))

/-- `File::seek` from file.rs (without the optional cluster-checkpoint table):
returns the updated context and the result. -/
def fileSeek (fat : Nat → FatValue) (clusterSize : Nat) (ctx : FileContext)
    (pos : SeekFrom) : FileContext × Except FsError Nat :=
  match resolveSeekOffset ctx pos with
  | none => (ctx, .error .invalidInput)
  | some n0 =>
    let newOffset :=
      match ctx.entrySize with
      | some s => if n0 > s then s else n0
      | none => n0
    if newOffset = ctx.offset then (ctx, .ok ctx.offset)
    else
      let newOffsetInClusters := clusters_from_bytes clusterSize newOffset
      let oldOffsetInClusters := clusters_from_bytes clusterSize ctx.offset
      if newOffset = 0 then
        ({ ctx with offset := 0, currentCluster := none }, .ok 0)
      else if newOffsetInClusters = oldOffsetInClusters then
        ({ ctx with offset := newOffset }, .ok newOffset)
      else
        match ctx.firstCluster with
        | some firstCluster =>
          match walkChain fat firstCluster 0 (newOffsetInClusters - 1) with
          | .error _ => (ctx, .error .corrupted)
          | .ok (.inl cluster) =>
            ({ ctx with offset := newOffset, currentCluster := some cluster },
             .ok newOffset)
          | .ok (.inr (i, cluster)) =>
            let clamped := (bytes_from_clusters clusterSize (i + 1)) % 2 ^ 32
            ({ ctx with offset := clamped, currentCluster := some cluster },
             .ok clamped)
        | none =>
          ({ ctx with offset := 0, currentCluster := none }, .ok 0)

/-- Whether the handle's cluster chain can supply every cluster the seek to
offset `s` needs (trivially true at `s = 0`); this is the well-formedness
guaranteed for real files, whose chains cover their recorded size. -/
def seekChainOk (fat : Nat → FatValue) (clusterSize : Nat) (ctx : FileContext)
    (s : Nat) : Bool :=
  s == 0 ||
    (match ctx.firstCluster with
     | none => false
     | some f =>
       match walkChain fat f 0 (clusters_from_bytes clusterSize s - 1) with
       | .ok (.inl _) => true
       | _ => false)

theorem seekChainOk_inl (fat : Nat → FatValue) (clusterSize : Nat)
    (ctx : FileContext) (s : Nat) (hs0 : s ≠ 0)
    (hchain : seekChainOk fat clusterSize ctx s = true) :
    ∃ f c, ctx.firstCluster = some f ∧
      walkChain fat f 0 (clusters_from_bytes clusterSize s - 1) =
        .ok (.inl c) := by
  unfold seekChainOk at hchain
  cases hfc : ctx.firstCluster with
  | none =>
    rw [hfc] at hchain
    simp [hs0] at hchain
  | some f =>
    rw [hfc] at hchain
    have hchain2 : (s == 0 ||
        (match walkChain fat f 0 (clusters_from_bytes clusterSize s - 1) with
         | Except.ok (Sum.inl _) => true
         | _ => false)) = true := hchain
    cases hw : walkChain fat f 0 (clusters_from_bytes clusterSize s - 1) with
    | error e =>
      rw [hw] at hchain2
      simp [hs0] at hchain2
    | ok r =>
      cases r with
      | inl c => exact ⟨f, c, rfl, hw⟩
      | inr p =>
        rw [hw] at hchain2
        simp [hs0] at hchain2

/-- C3: for a file handle whose directory entry records size `s` and whose
cluster chain covers that size, a seek whose resolved absolute target exceeds
`s` clamps the position to `s` and returns `s`; a seek whose resolved target
is negative or not representable as `u32` returns `InvalidInput` and leaves
the context (hence the position) unchanged. -/
theorem fileSeek_spec (fat : Nat → FatValue) (clusterSize : Nat)
    (ctx : FileContext) (pos : SeekFrom) (s : Nat)
    (hsize : ctx.entrySize = some s)
    (hchain : seekChainOk fat clusterSize ctx s = true) :
    (∀ t, resolveSeekOffset ctx pos = some t → s < t →
      (fileSeek fat clusterSize ctx pos).1.offset = s ∧
      (fileSeek fat clusterSize ctx pos).2 = .ok s) ∧
    (resolveSeekOffset ctx pos = none →
      fileSeek fat clusterSize ctx pos = (ctx, .error .invalidInput)) := by
  constructor
  · intro t hres hts
    simp only [fileSeek, hres, hsize]
    rw [if_pos hts]
    by_cases h0 : s = ctx.offset
    · rw [if_pos h0]
      exact ⟨h0.symm, by rw [h0]⟩
    · rw [if_neg h0]
      by_cases hs0 : s = 0
      · rw [if_pos hs0]
        exact ⟨hs0.symm, by rw [hs0]⟩
      · rw [if_neg hs0]
        by_cases heq : clusters_from_bytes clusterSize s =
            clusters_from_bytes clusterSize ctx.offset
        · rw [if_pos heq]
          exact ⟨rfl, rfl⟩
        · rw [if_neg heq]
          obtain ⟨f, c, hfc, hw⟩ := seekChainOk_inl fat clusterSize ctx s hs0 hchain
          split
          · rename_i fc hfc2
            rw [hfc2] at hfc
            injection hfc with hff
            subst hff
            split
            · rename_i e hw2
              rw [hw] at hw2
              simp at hw2
            · rename_i cluster hw2
              exact ⟨rfl, rfl⟩
            · rename_i i cluster hw2
              rw [hw] at hw2
              simp at hw2
          · rename_i hfc2
            rw [hfc2] at hfc
            simp at hfc
  · intro hnone
    simp only [fileSeek, hnone]

/-- Witness for C3: seeking to 5000 in a 1000-byte file (chain 2 → 3 → end,
512-byte clusters) clamps to 1000; `SeekFrom::End` on a handle with no entry
resolves to `None` and yields `InvalidInput`. -/
theorem fileSeek_spec_witness :
    ((∀ t, resolveSeekOffset ⟨some 2, none, 0, some 1000⟩ (.start 5000) = some t →
        1000 < t →
      (fileSeek (fun c => if c = 2 then FatValue.data 3 else FatValue.endOfChain)
        512 ⟨some 2, none, 0, some 1000⟩ (.start 5000)).1.offset = 1000 ∧
      (fileSeek (fun c => if c = 2 then FatValue.data 3 else FatValue.endOfChain)
        512 ⟨some 2, none, 0, some 1000⟩ (.start 5000)).2 = .ok 1000) ∧
    (resolveSeekOffset ⟨some 2, none, 0, some 1000⟩ (.start 5000) = none →
      fileSeek (fun c => if c = 2 then FatValue.data 3 else FatValue.endOfChain)
        512 ⟨some 2, none, 0, some 1000⟩ (.start 5000) =
        (⟨some 2, none, 0, some 1000⟩, .error .invalidInput))) ∧
    ((∀ t, resolveSeekOffset ⟨some 2, none, 0, some 1000⟩ (.start (2 ^ 40)) = some t →
        1000 < t →
      (fileSeek (fun c => if c = 2 then FatValue.data 3 else FatValue.endOfChain)
        512 ⟨some 2, none, 0, some 1000⟩ (.start (2 ^ 40))).1.offset = 1000 ∧
      (fileSeek (fun c => if c = 2 then FatValue.data 3 else FatValue.endOfChain)
        512 ⟨some 2, none, 0, some 1000⟩ (.start (2 ^ 40))).2 = .ok 1000) ∧
    (resolveSeekOffset ⟨some 2, none, 0, some 1000⟩ (.start (2 ^ 40)) = none →
      fileSeek (fun c => if c = 2 then FatValue.data 3 else FatValue.endOfChain)
        512 ⟨some 2, none, 0, some 1000⟩ (.start (2 ^ 40)) =
        (⟨some 2, none, 0, some 1000⟩, .error .invalidInput))) :=
  ⟨fileSeek_spec (fun c => if c = 2 then FatValue.data 3 else FatValue.endOfChain)
      512 ⟨some 2, none, 0, some 1000⟩ (.start 5000) 1000 rfl (by decide),
   fileSeek_spec (fun c => if c = 2 then FatValue.data 3 else FatValue.endOfChain)
      512 ⟨some 2, none, 0, some 1000⟩ (.start (2 ^ 40)) 1000 rfl (by decide)⟩


/-! ### File::write and the file-size cap (file.rs lines 9, 632-812) -/

/-- `MAX_FILE_SIZE` from file.rs line 9 (`u32::MAX`). -/
def MAX_FILE_SIZE : Nat := 2 ^ 32 - 1

/-- Oracles for the effects of `File::write` that live outside file.rs: the
outcome of `set_dirty_flag`, the count returned by the fused
`write_contiguous` call, the cluster returned by `alloc_cluster`, and the
count the device reports for a raw write of `n` bytes (the io contract allows
any count up to `n`). -/
structure WriteEnv where
  dirtyResult : Except Unit Unit
  wcResult : Except Unit Nat
  allocResult : Except Unit Nat
  devW : Nat → Nat

/-- The boundary cluster resolution shared by both write paths (file.rs lines
655-667 and 751-761): before the first cluster use `first_cluster`; otherwise
step the chain iterator once, propagating chain errors, with `none` at end of
chain. -/
def nextClusterAtBoundary (fat : Nat → FatValue) (ctx : FileContext) :
    Except Unit (Option Nat) :=
  match ctx.currentCluster with
  | none => .ok ctx.firstCluster
  | some n =>
    match chainNext fat n with
    | some (.ok next) => .ok (some next)
    | some (.error _) => .error ()
    | none => .ok none

/-- The `cluster_delta` advancement loop of the multi-cluster write path
(file.rs lines 709-723): follow `delta` chain links, stopping early at a chain
end or chain error. -/
def advanceClusters (fat : Nat → FatValue) : Nat → Nat → Nat
  | 0, cluster => cluster
  | d + 1, cluster =>
    match chainNext fat cluster with
    | some (.ok next) => advanceClusters fat d next
    | _ => cluster

/-- `File::update_dir_entry_after_write` (file.rs lines 368-377) restricted to
the size field: grow the recorded size to the current offset when the offset
passed it. -/
def updateEntrySize (ctx : FileContext) : FileContext :=
  match ctx.entrySize with
  | some s => if s < ctx.offset then { ctx with entrySize := some ctx.offset } else ctx
  | none => ctx

/-- The cluster-index bookkeeping of the successful multi-cluster branch
(file.rs lines 694-706): old index, new index (one less at an exact cluster
boundary) and their saturating difference. -/
def multiClusterDelta (clusterSize oldOffset newOffset : Nat) : Nat :=
  (if 0 < newOffset ∧ newOffset % clusterSize = 0 then newOffset / clusterSize - 1
   else newOffset / clusterSize) -
  (if oldOffset = 0 then 0 else oldOffset / clusterSize - 1)

/-- The successful multi-cluster branch (file.rs lines 683-729): `written` is
the already-capped count; advance the offset (u32 addition), walk the chain to
the cluster matching the new offset, grow the directory-entry size, and return
the count. -/
def multiSuccess (fat : Nat → FatValue) (clusterSize : Nat) (ctx : FileContext)
    (cc written : Nat) : FileContext × Except Unit Nat :=
  (updateEntrySize { ctx with
      offset := (ctx.offset + written) % 2 ^ 32,
      currentCluster :=
        if 0 < multiClusterDelta clusterSize ctx.offset
            ((ctx.offset + written) % 2 ^ 32) then
          some (advanceClusters fat
            (multiClusterDelta clusterSize ctx.offset
              ((ctx.offset + written) % 2 ^ 32)) cc)
        else ctx.currentCluster },
   .ok written)

/-- The cluster resolution of the single-cluster write path (file.rs lines
749-782): at a cluster boundary advance the chain, allocating a fresh cluster
at end of chain and recording it as `first_cluster` when the file had none;
inside a cluster `current_cluster` must exist (the source panics otherwise,
modelled as an error). Returns the write cluster and the updated context. -/
def resolveWriteCluster (fat : Nat → FatValue) (clusterSize : Nat)
    (env : WriteEnv) (ctx : FileContext) : Except Unit (Nat × FileContext) :=
  if ctx.offset % clusterSize = 0 then
    match nextClusterAtBoundary fat ctx with
    | .error e => .error e
    | .ok (some n) => .ok (n, ctx)
    | .ok none =>
      match env.allocResult with
      | .error e => .error e
      | .ok newCluster =>
        if ctx.firstCluster = none then
          .ok (newCluster, { ctx with firstCluster := some newCluster })
        else
          .ok (newCluster, ctx)
  else
    match ctx.currentCluster with
    | some n => .ok (n, ctx)
    | none => .error ()

/-- The single-cluster write path (file.rs lines 740-806): the write size is
`min (min buf_len bytes_left_in_cluster) bytes_left_until_max_file_size`; a
zero write size or a zero device count returns `Ok 0`; otherwise the offset
advances by the device count and `current_cluster` becomes the write
cluster. -/
def writeSinglePath (fat : Nat → FatValue) (clusterSize : Nat) (env : WriteEnv)
    (ctx : FileContext) (bufLen : Nat) : FileContext × Except Unit Nat :=
  if min (min bufLen (clusterSize - ctx.offset % clusterSize))
      (MAX_FILE_SIZE - ctx.offset) = 0 then
    (ctx, .ok 0)
  else
    match resolveWriteCluster fat clusterSize env ctx with
    | .error e => (ctx, .error e)
    | .ok p =>
      if env.devW (min (min bufLen (clusterSize - ctx.offset % clusterSize))
          (MAX_FILE_SIZE - ctx.offset)) = 0 then
        (p.2, .ok 0)
      else
        (updateEntrySize { p.2 with
            offset := (p.2.offset + env.devW (min (min bufLen
                (clusterSize - ctx.offset % clusterSize))
                (MAX_FILE_SIZE - ctx.offset))) % 2 ^ 32,
            currentCluster := some p.1 },
         .ok (env.devW (min (min bufLen (clusterSize - ctx.offset % clusterSize))
            (MAX_FILE_SIZE - ctx.offset))))

/-- `File::write` (file.rs lines 632-807) with the `multi-cluster-io` feature:
early `Ok 0` on an empty buffer or a full file, dirty-flag errors propagate,
the multi-cluster attempt runs at a cluster boundary with at least one full
cluster to write and falls back to the single-cluster path on a zero count or
an error, and the multi-cluster count is capped at the bytes left until the
file-size cap. -/
def fileWrite (fat : Nat → FatValue) (clusterSize : Nat) (env : WriteEnv)
    (ctx : FileContext) (bufLen : Nat) : FileContext × Except Unit Nat :=
  if bufLen = 0 ∨ MAX_FILE_SIZE - ctx.offset = 0 then
    (ctx, .ok 0)
  else
    match env.dirtyResult with
    | .error e => (ctx, .error e)
    | .ok _ =>
      if ctx.offset % clusterSize = 0 ∧ clusterSize ≤ bufLen then
        match nextClusterAtBoundary fat ctx with
        | .error e => (ctx, .error e)
        | .ok (some cc) =>
          match env.wcResult with
          | .ok w =>
            if 0 < w then
              multiSuccess fat clusterSize ctx cc
                (min w (MAX_FILE_SIZE - ctx.offset))
            else
              writeSinglePath fat clusterSize env ctx bufLen
          | .error _ => writeSinglePath fat clusterSize env ctx bufLen
        | .ok none => writeSinglePath fat clusterSize env ctx bufLen
      else
        writeSinglePath fat clusterSize env ctx bufLen

theorem updateEntrySize_offset (ctx : FileContext) :
    (updateEntrySize ctx).offset = ctx.offset := by
  unfold updateEntrySize
  split
  · split <;> rfl
  · rfl

theorem resolveWriteCluster_offset (fat : Nat → FatValue) (clusterSize : Nat)
    (env : WriteEnv) (ctx : FileContext) (p : Nat × FileContext)
    (h : resolveWriteCluster fat clusterSize env ctx = .ok p) :
    p.2.offset = ctx.offset := by
  unfold resolveWriteCluster at h
  split at h
  · split at h
    · simp at h
    · injection h with h'
      rw [← h']
    · split at h
      · simp at h
      · split at h
        · injection h with h'
          rw [← h']
        · injection h with h'
          rw [← h']
  · split at h
    · injection h with h'
      rw [← h']
    · simp at h

theorem writeSinglePath_cap (fat : Nat → FatValue) (clusterSize : Nat)
    (env : WriteEnv) (ctx : FileContext) (bufLen : Nat)
    (hdev : ∀ r, env.devW r ≤ r) (hoff : ctx.offset ≤ MAX_FILE_SIZE)
    (c : FileContext) (r : Except Unit Nat)
    (heq : writeSinglePath fat clusterSize env ctx bufLen = (c, r)) :
    ∀ n, r = .ok n → n ≤ MAX_FILE_SIZE - ctx.offset ∧
      c.offset ≤ MAX_FILE_SIZE := by
  unfold writeSinglePath at heq
  split at heq
  · injection heq with h1 h2
    intro n hn
    rw [← h2] at hn
    injection hn with h3
    exact ⟨by omega, by rw [← h1]; exact hoff⟩
  · split at heq
    · injection heq with h1 h2
      intro n hn
      rw [← h2] at hn
      simp at hn
    · rename_i p hres
      have hctx1 : p.2.offset = ctx.offset :=
        resolveWriteCluster_offset fat clusterSize env ctx p hres
      split at heq
      · injection heq with h1 h2
        intro n hn
        rw [← h2] at hn
        injection hn with h3
        refine ⟨by omega, ?_⟩
        rw [← h1, hctx1]
        exact hoff
      · injection heq with h1 h2
        intro n hn
        rw [← h2] at hn
        injection hn with h3
        subst h3
        have hd := hdev (min (min bufLen (clusterSize - ctx.offset % clusterSize))
          (MAX_FILE_SIZE - ctx.offset))
        refine ⟨le_trans hd (min_le_right _ _), ?_⟩
        rw [← h1, updateEntrySize_offset]
        show (p.2.offset + env.devW (min (min bufLen
            (clusterSize - ctx.offset % clusterSize))
            (MAX_FILE_SIZE - ctx.offset))) % 2 ^ 32 ≤ MAX_FILE_SIZE
        rw [hctx1]
        have hm : min (min bufLen (clusterSize - ctx.offset % clusterSize))
            (MAX_FILE_SIZE - ctx.offset) ≤ MAX_FILE_SIZE - ctx.offset :=
          min_le_right _ _
        unfold MAX_FILE_SIZE at hd hm hoff ⊢
        omega

/-- C4: provided the device never reports more bytes written than requested
and the offset respects the `u32` cap, every `File::write` call that returns
`Ok n` has `n ≤ MAX_FILE_SIZE − offset_before` and leaves the offset at most
`MAX_FILE_SIZE`; a call at offset `MAX_FILE_SIZE`, or with an empty buffer,
returns `Ok 0` with the context unchanged. -/
theorem fileWrite_cap (fat : Nat → FatValue) (clusterSize : Nat)
    (env : WriteEnv) (ctx : FileContext) (bufLen : Nat)
    (hdev : ∀ r, env.devW r ≤ r) (hoff : ctx.offset ≤ MAX_FILE_SIZE)
    (c : FileContext) (r : Except Unit Nat)
    (heq : fileWrite fat clusterSize env ctx bufLen = (c, r)) :
    (∀ n, r = .ok n → n ≤ MAX_FILE_SIZE - ctx.offset ∧
      c.offset ≤ MAX_FILE_SIZE) ∧
    (ctx.offset = MAX_FILE_SIZE → c = ctx ∧ r = .ok 0) ∧
    (bufLen = 0 → c = ctx ∧ r = .ok 0) := by
  unfold fileWrite at heq
  split at heq
  · injection heq with h1 h2
    refine ⟨?_, fun _ => ⟨h1.symm, h2.symm⟩, fun _ => ⟨h1.symm, h2.symm⟩⟩
    intro n hn
    rw [← h2] at hn
    injection hn with h3
    exact ⟨by omega, by rw [← h1]; exact hoff⟩
  · rename_i hc
    refine ⟨?_,
      fun hmax => absurd (Or.inr (by rw [hmax]; exact Nat.sub_self _)) hc,
      fun hb => absurd (Or.inl hb) hc⟩
    split at heq
    · injection heq with h1 h2
      intro n hn
      rw [← h2] at hn
      simp at hn
    · split at heq
      · split at heq
        · injection heq with h1 h2
          intro n hn
          rw [← h2] at hn
          simp at hn
        · split at heq
          · rename_i w hwc
            split at heq
            · unfold multiSuccess at heq
              injection heq with h1 h2
              intro n hn
              rw [← h2] at hn
              injection hn with h3
              subst h3
              refine ⟨min_le_right _ _, ?_⟩
              rw [← h1, updateEntrySize_offset]
              show (ctx.offset + min w (MAX_FILE_SIZE - ctx.offset)) % 2 ^ 32 ≤
                MAX_FILE_SIZE
              have hm : min w (MAX_FILE_SIZE - ctx.offset) ≤
                  MAX_FILE_SIZE - ctx.offset := min_le_right _ _
              unfold MAX_FILE_SIZE at hm hoff ⊢
              omega
            · exact writeSinglePath_cap fat clusterSize env ctx bufLen hdev hoff
                c r heq
          · exact writeSinglePath_cap fat clusterSize env ctx bufLen hdev hoff
              c r heq
        · exact writeSinglePath_cap fat clusterSize env ctx bufLen hdev hoff
            c r heq
      · exact writeSinglePath_cap fat clusterSize env ctx bufLen hdev hoff
          c r heq

/-- Witness for C4: a 10-byte write into an empty file (512-byte clusters,
ideal device, allocator hands out cluster 2) writes 10 bytes, allocates and
records cluster 2, and moves the offset to 10. -/
theorem fileWrite_cap_witness :
    (∀ n, (Except.ok 10 : Except Unit Nat) = .ok n →
      n ≤ MAX_FILE_SIZE - 0 ∧
      (⟨some 2, some 2, 10, some 10⟩ : FileContext).offset ≤ MAX_FILE_SIZE) ∧
    ((0 : Nat) = MAX_FILE_SIZE →
      (⟨some 2, some 2, 10, some 10⟩ : FileContext) =
        (⟨none, none, 0, some 0⟩ : FileContext) ∧
      (Except.ok 10 : Except Unit Nat) = .ok 0) ∧
    ((10 : Nat) = 0 →
      (⟨some 2, some 2, 10, some 10⟩ : FileContext) =
        (⟨none, none, 0, some 0⟩ : FileContext) ∧
      (Except.ok 10 : Except Unit Nat) = .ok 0) :=
  fileWrite_cap (fun _ => FatValue.endOfChain) 512 ⟨.ok (), .ok 0, .ok 2, id⟩
    ⟨none, none, 0, some 0⟩ 10 (fun r => le_refl r) (Nat.zero_le _)
    ⟨some 2, some 2, 10, some 10⟩ (.ok 10) rfl


/-! ### FAT sector cache (fat_cache.rs) -/

/-- `FAT_CACHE_SECTORS` from fat_cache.rs line 27 (default configuration). -/
def FAT_CACHE_SECTORS : Nat := 8

/-- `CachedFatSector` (fat_cache.rs lines 31-42); the backing byte array is
modelled as a function from in-sector index to byte. -/
structure CachedFatSector where
  offset : Nat
  data : Nat → Nat
  validLen : Nat
  dirty : Bool
  lastAccess : Nat

/-- `FatCache` (fat_cache.rs lines 46-56). -/
structure FatCache where
  sectors : List (Option CachedFatSector)
  accessCounter : Nat
  sectorSize : Nat
  hits : Nat
  misses : Nat

/-- `FatCache::new` (lines 62-70). -/
def FatCache.new (sectorSize : Nat) : FatCache :=
  ⟨List.replicate FAT_CACHE_SECTORS none, 0, sectorSize, 0, 0⟩

/-- `FatCache::sector_offset` (lines 74-76). -/
def FatCache.sectorOffset (c : FatCache) (offset : Nat) : Nat :=
  offset / c.sectorSize * c.sectorSize

/-- The slot scan of `FatCache::find_sector` (lines 79-90): the first index
holding a sector with the given sector offset. -/
def findSectorIdx (sectors : List (Option CachedFatSector)) (sectorOffset : Nat) :
    Option Nat :=
  (List.range sectors.length).find? fun i =>
    match sectors.getD i none with
    | some s => s.offset == sectorOffset
    | none => false

/-- The loop of `FatCache::find_lru_slot` (lines 93-109): first empty slot,
else the smallest `last_access` (initial bound `u32::MAX`, ties keep the
earliest index). -/
def findLruGo : List (Option CachedFatSector) → Nat → Nat → Nat → Nat
  | [], _, lruIdx, _ => lruIdx
  | none :: _, idx, _, _ => idx
  | some s :: rest, idx, lruIdx, lruTime =>
    if s.lastAccess < lruTime then findLruGo rest (idx + 1) idx s.lastAccess
    else findLruGo rest (idx + 1) lruIdx lruTime

/-- `FatCache::find_lru_slot` (lines 93-109). -/
def FatCache.findLruSlot (c : FatCache) : Nat :=
  findLruGo c.sectors 0 0 (2 ^ 32 - 1)

/-- Writing `len` bytes taken from `f` at absolute offset `off` into a byte
store. -/
def storeWriteFn (st : Nat → Nat) (off len : Nat) (f : Nat → Nat) : Nat → Nat :=
  fun a => if off ≤ a ∧ a < off + len then f (a - off) else st a

/-- Reading `len` bytes at absolute offset `off` from a byte store. -/
def storeRead (st : Nat → Nat) (off len : Nat) : List Nat :=
  (List.range len).map fun i => st (off + i)

/-- The dirty-sector writeback performed before eviction (lines 145-157 and
205-217), with a storage device that always completes the write loop. -/
def writebackSlot (st : Nat → Nat) (slot : Option CachedFatSector) : Nat → Nat :=
  match slot with
  | some s => if s.dirty then storeWriteFn st s.offset s.validLen s.data else st
  | none => st

/-- The cache-miss sector load shared by `read_cached` (lines 139-172) and
`write_cached` (lines 201-231): pick the LRU slot, write back its dirty
contents, read the whole sector from storage (the ideal device transfers the
full `sector_size` bytes, so `bytes_read = sector_size`) and install it.
Returns the cache, the storage after writeback and the slot index. -/
def FatCache.loadSector (c : FatCache) (st : Nat → Nat) (sectorOffset : Nat) :
    FatCache × (Nat → Nat) × Nat :=
  ({ c with
      misses := (c.misses + 1) % 2 ^ 32,
      accessCounter := (c.accessCounter + 1) % 2 ^ 32,
      sectors := c.sectors.set c.findLruSlot (some
        { offset := sectorOffset,
          data := fun j =>
            writebackSlot st (c.sectors.getD c.findLruSlot none) (sectorOffset + j),
          validLen := c.sectorSize,
          dirty := false,
          lastAccess := (c.accessCounter + 1) % 2 ^ 32 }) },
    writebackSlot st (c.sectors.getD c.findLruSlot none),
    c.findLruSlot)

/-- `FatCache::read_cached` (lines 112-179), `find_sector`'s counter bump
inlined: on a hit copy `min buf_len (valid_len − offset_in_sector)` bytes from
the cached sector; on a miss load the sector and copy
`min buf_len (bytes_read − offset_in_sector)` bytes from it. Returns the
cache, the storage (changed only by an eviction writeback) and the copied
bytes. -/
def FatCache.readCached (c : FatCache) (st : Nat → Nat) (offset bufLen : Nat) :
    FatCache × (Nat → Nat) × List Nat :=
  match findSectorIdx c.sectors (c.sectorOffset offset) with
  | some idx =>
    match c.sectors.getD idx none with
    | some s =>
      ({ c with
          accessCounter := (c.accessCounter + 1) % 2 ^ 32,
          hits := (c.hits + 1) % 2 ^ 32,
          sectors := c.sectors.set idx (some
            { s with lastAccess := (c.accessCounter + 1) % 2 ^ 32 }) },
       st,
       (List.range (min bufLen
           (s.validLen - (offset - c.sectorOffset offset)))).map
         fun i => s.data (offset - c.sectorOffset offset + i))
    | none => (c, st, [])
  | none =>
    match c.loadSector st (c.sectorOffset offset) with
    | (c₁, st₁, _) =>
      (c₁, st₁,
       (List.range (min bufLen
           (c.sectorSize - (offset - c.sectorOffset offset)))).map
         fun i => st₁ (c.sectorOffset offset + (offset - c.sectorOffset offset + i)))

/-- The in-place sector mutation of `write_cached` (lines 237-241): refresh
`last_access`, copy `min buf_len (valid_len − offset_in_sector)` bytes into
the sector at `offset_in_sector`, mark dirty. -/
def FatCache.updateSlotWrite (c : FatCache) (idx offIn : Nat) (bytes : List Nat) :
    FatCache :=
  match c.sectors.getD idx none with
  | some s =>
    { c with sectors := c.sectors.set idx (some
        { s with
          lastAccess := c.accessCounter,
          data := fun j =>
            if offIn ≤ j ∧ j < offIn + min bytes.length (s.validLen - offIn) then
              bytes.getD (j - offIn) 0
            else s.data j,
          dirty := true }) }
  | none => c

/-- `FatCache::write_cached` (lines 182-244), `find_sector`'s counter bump
inlined: load the sector on a miss (read-modify-write), then mutate it in
place. The storage changes only through an eviction writeback. -/
def FatCache.writeCached (c : FatCache) (st : Nat → Nat) (offset : Nat)
    (bytes : List Nat) : FatCache × (Nat → Nat) :=
  match findSectorIdx c.sectors (c.sectorOffset offset) with
  | some idx =>
    (FatCache.updateSlotWrite
      { c with
        accessCounter := (c.accessCounter + 1) % 2 ^ 32,
        hits := (c.hits + 1) % 2 ^ 32 }
      idx (offset - c.sectorOffset offset) bytes,
     st)
  | none =>
    match c.loadSector st (c.sectorOffset offset) with
    | (c₁, st₁, idx) =>
      (FatCache.updateSlotWrite c₁ idx (offset - c.sectorOffset offset) bytes, st₁)

/-- The loop of `FatCache::flush` (lines 247-271): write every dirty sector
back (the ideal device completes the loop) and clear its dirty flag. -/
def flushGo : List (Option CachedFatSector) → (Nat → Nat) →
    List (Option CachedFatSector) × (Nat → Nat)
  | [], st => ([], st)
  | none :: rest, st =>
    match flushGo rest st with
    | (l, st') => (none :: l, st')
  | some s :: rest, st =>
    if s.dirty then
      match flushGo rest (storeWriteFn st s.offset s.validLen s.data) with
      | (l, st') => (some { s with dirty := false } :: l, st')
    else
      match flushGo rest st with
      | (l, st') => (some s :: l, st')

/-- `FatCache::flush` (lines 247-271). -/
def FatCache.flush (c : FatCache) (st : Nat → Nat) : FatCache × (Nat → Nat) :=
  match flushGo c.sectors st with
  | (l, st') => ({ c with sectors := l }, st')

/-- A FAT-region access: a read of `len` bytes or a write of the given bytes,
at an absolute byte offset. -/
inductive CacheOp where
  | read (offset len : Nat)
  | write (offset : Nat) (bytes : List Nat)

/-- Whether an access stays inside one sector (the byte range does not cross
a sector boundary). -/
def CacheOp.inSector (ss : Nat) : CacheOp → Bool
  | .read off len => off % ss + len ≤ ss
  | .write off bytes => off % ss + bytes.length ≤ ss

/-- One cached access: the resulting cache, storage, and the bytes a read
copied out. -/
def applyCacheOp (c : FatCache) (st : Nat → Nat) :
    CacheOp → FatCache × (Nat → Nat) × Option (List Nat)
  | .read off len =>
    match c.readCached st off len with
    | (c', st', out) => (c', st', some out)
  | .write off bytes =>
    match c.writeCached st off bytes with
    | (c', st') => (c', st', none)

/-- A sequence of cached accesses, collecting every read's bytes. -/
def execCacheOps (c : FatCache) (st : Nat → Nat) :
    List CacheOp → FatCache × (Nat → Nat) × List (Option (List Nat))
  | [] => (c, st, [])
  | op :: rest =>
    match applyCacheOp c st op with
    | (c', st', out) =>
      match execCacheOps c' st' rest with
      | (c'', st'', outs) => (c'', st'', out :: outs)

/-- The cache-free reference behaviour of one access: a write lands directly
in storage, a read returns the current bytes. -/
def applySpecOp (spec : Nat → Nat) : CacheOp → (Nat → Nat) × Option (List Nat)
  | .read off len => (spec, some (storeRead spec off len))
  | .write off bytes =>
    (storeWriteFn spec off bytes.length (fun j => bytes.getD j 0), none)

/-- The cache-free reference behaviour of a sequence of accesses. -/
def execSpecOps (spec : Nat → Nat) :
    List CacheOp → (Nat → Nat) × List (Option (List Nat))
  | [] => (spec, [])
  | op :: rest =>
    match applySpecOp spec op with
    | (spec', out) =>
      match execSpecOps spec' rest with
      | (spec'', outs) => (spec'', out :: outs)

theorem optGetD_set_self {α : Type} (l : List α) (i : Nat) (x d : α)
    (h : i < l.length) : (l.set i x).getD i d = x := by
  induction l generalizing i with
  | nil => simp at h
  | cons y ys ih =>
    cases i with
    | zero => rfl
    | succ n =>
      have hn : n < ys.length := by simpa using h
      simpa using ih n hn

theorem optGetD_set_ne {α : Type} (l : List α) (i j : Nat) (x d : α)
    (h : i ≠ j) : (l.set i x).getD j d = l.getD j d := by
  induction l generalizing i j with
  | nil => rfl
  | cons y ys ih =>
    cases i with
    | zero =>
      cases j with
      | zero => exact absurd rfl h
      | succ m => rfl
    | succ n =>
      cases j with
      | zero => rfl
      | succ m =>
        have : n ≠ m := fun hc => h (by rw [hc])
        simpa using ih n m this

theorem optGetD_replicate {α : Type} (n i : Nat) (d : α) :
    (List.replicate n d).getD i d = d := by
  induction n generalizing i with
  | zero => rfl
  | succ m ih =>
    cases i with
    | zero => rfl
    | succ k => simpa using ih k

theorem length_set' {α : Type} (l : List α) (i : Nat) (x : α) :
    (l.set i x).length = l.length := List.length_set l i x

/-- `find_sector` hit: the returned index is in range and its slot carries the
requested sector offset. -/
theorem findSectorIdx_some (sectors : List (Option CachedFatSector))
    (so idx : Nat) (h : findSectorIdx sectors so = some idx) :
    idx < sectors.length ∧
      ∃ s, sectors.getD idx none = some s ∧ s.offset = so := by
  unfold findSectorIdx at h
  have hmem := List.mem_of_find?_eq_some h
  have hp := List.find?_some h
  refine ⟨List.mem_range.mp hmem, ?_⟩
  cases hs : sectors.getD idx none with
  | none => rw [hs] at hp; simp at hp
  | some s =>
    rw [hs] at hp
    exact ⟨s, rfl, by simpa using hp⟩

/-- `find_sector` miss: no slot carries the requested sector offset. -/
theorem findSectorIdx_none (sectors : List (Option CachedFatSector))
    (so : Nat) (h : findSectorIdx sectors so = none) :
    ∀ i < sectors.length, ∀ s, sectors.getD i none = some s → s.offset ≠ so := by
  intro i hi s hs hso
  unfold findSectorIdx at h
  have := List.find?_eq_none.mp h i (List.mem_range.mpr hi)
  rw [hs] at this
  simp [hso] at this

theorem findLruGo_lt (N : Nat) :
    ∀ (l : List (Option CachedFatSector)) (idx lruIdx t : Nat),
      lruIdx < N → idx + l.length ≤ N → findLruGo l idx lruIdx t < N := by
  intro l
  induction l with
  | nil => intro idx lruIdx t h _; exact h
  | cons x rest ih =>
    intro idx lruIdx t h hlen
    cases x with
    | none =>
      show idx < N
      simp only [List.length_cons] at hlen
      omega
    | some s =>
      show (if s.lastAccess < t then findLruGo rest (idx + 1) idx s.lastAccess
        else findLruGo rest (idx + 1) lruIdx t) < N
      simp only [List.length_cons] at hlen
      split
      · exact ih (idx + 1) idx s.lastAccess (by omega) (by omega)
      · exact ih (idx + 1) lruIdx t h (by omega)

theorem findLruSlot_lt (c : FatCache) (h : 0 < c.sectors.length) :
    c.findLruSlot < c.sectors.length :=
  findLruGo_lt c.sectors.length c.sectors 0 0 (2 ^ 32 - 1) h (by omega)

/-- What a correct cached sector looks like: full sector length, aligned
offset, contents agreeing with the reference bytes, and — when clean — the
storage agreeing with the reference bytes on its range. -/
def SlotOk (ss : Nat) (st spec : Nat → Nat) (s : CachedFatSector) : Prop :=
  s.validLen = ss ∧ s.offset = s.offset / ss * ss ∧
  (∀ j < ss, s.data j = spec (s.offset + j)) ∧
  (s.dirty = false → ∀ j < ss, st (s.offset + j) = spec (s.offset + j))

/-- Whether some cached sector covers byte address `a`. -/
def Covers (ss : Nat) (l : List (Option CachedFatSector)) (a : Nat) : Prop :=
  ∃ i < l.length, ∃ s, l.getD i none = some s ∧ s.offset ≤ a ∧ a < s.offset + ss

/-- The cache-coherence invariant: every cached sector is correct, storage
agrees with the reference bytes outside the cached ranges, and no two slots
cache the same sector. -/
def CacheInv (ss : Nat) (c : FatCache) (st spec : Nat → Nat) : Prop :=
  c.sectorSize = ss ∧
  c.sectors.length = FAT_CACHE_SECTORS ∧
  (∀ i < c.sectors.length, ∀ s, c.sectors.getD i none = some s →
    SlotOk ss st spec s) ∧
  (∀ a, ¬ Covers ss c.sectors a → st a = spec a) ∧
  (∀ i < c.sectors.length, ∀ j < c.sectors.length, i ≠ j →
    ∀ si sj, c.sectors.getD i none = some si → c.sectors.getD j none = some sj →
      si.offset ≠ sj.offset)

/-- Two distinct aligned sector ranges are disjoint. -/
theorem aligned_disjoint (ss a o₁ o₂ : Nat) (hss : 0 < ss)
    (h₁ : o₁ = o₁ / ss * ss) (h₂ : o₂ = o₂ / ss * ss) (hne : o₁ ≠ o₂)
    (ha₁ : o₁ ≤ a) (ha₁' : a < o₁ + ss) (ha₂ : o₂ ≤ a) (ha₂' : a < o₂ + ss) :
    False := by
  have e₁ : a / ss = o₁ / ss := by
    apply Nat.div_eq_of_lt_le
    · rw [← h₁]; exact ha₁
    · rw [Nat.succ_mul, ← h₁]; exact ha₁'
  have e₂ : a / ss = o₂ / ss := by
    apply Nat.div_eq_of_lt_le
    · rw [← h₂]; exact ha₂
    · rw [Nat.succ_mul, ← h₂]; exact ha₂'
  exact hne (by rw [h₁, ← e₁, e₂, ← h₂])

theorem writebackSlot_none (st : Nat → Nat) :
    writebackSlot st none = st := rfl

/-- Writeback leaves addresses outside the slot's range untouched. -/
theorem writebackSlot_out (st : Nat → Nat) (s : CachedFatSector) (a : Nat)
    (ss : Nat) (hv : s.validLen = ss)
    (h : ¬ (s.offset ≤ a ∧ a < s.offset + ss)) :
    writebackSlot st (some s) a = st a := by
  have hred : writebackSlot st (some s) =
      if s.dirty then storeWriteFn st s.offset s.validLen s.data else st := rfl
  rw [hred]
  split
  · show storeWriteFn st s.offset s.validLen s.data a = st a
    unfold storeWriteFn
    rw [hv]
    exact if_neg h
  · rfl

/-- Writeback makes the storage agree with the reference bytes on the slot's
range. -/
theorem writebackSlot_in (ss : Nat) (st spec : Nat → Nat)
    (s : CachedFatSector) (a : Nat) (hok : SlotOk ss st spec s)
    (ha : s.offset ≤ a) (ha' : a < s.offset + ss) :
    writebackSlot st (some s) a = spec a := by
  obtain ⟨hv, _, hdata, hclean⟩ := hok
  have hred : writebackSlot st (some s) =
      if s.dirty then storeWriteFn st s.offset s.validLen s.data else st := rfl
  rw [hred]
  split
  · show storeWriteFn st s.offset s.validLen s.data a = spec a
    unfold storeWriteFn
    rw [hv, if_pos ⟨ha, ha'⟩]
    have := hdata (a - s.offset) (by omega)
    rw [this]
    congr 1
    omega
  · rename_i hdirty
    have hd : s.dirty = false := by
      revert hdirty
      cases s.dirty <;> simp
    have := hclean hd (a - s.offset) (by omega)
    have harw : s.offset + (a - s.offset) = a := by omega
    rw [harw] at this
    exact this

/-- On a miss, no cached sector covers the target sector's byte range. -/
theorem miss_target_uncovered (ss : Nat) (hss : 0 < ss) (c : FatCache)
    (st spec : Nat → Nat) (so a : Nat) (hso : so = so / ss * ss)
    (hinv : CacheInv ss c st spec)
    (hmiss : ∀ i < c.sectors.length, ∀ s, c.sectors.getD i none = some s →
      s.offset ≠ so)
    (ha : so ≤ a) (ha' : a < so + ss) : ¬ Covers ss c.sectors a := by
  intro hcov
  obtain ⟨i, hi, s, hsi, hr1, hr2⟩ := hcov
  have hok := hinv.2.2.1 i hi s hsi
  exact aligned_disjoint ss a s.offset so hss hok.2.1 hso
    (hmiss i hi s hsi) hr1 hr2 ha ha'

/-- Loading a missing sector preserves the invariant; the chosen slot holds
the freshly read sector and the storage agrees with the reference bytes on
its range. -/
theorem loadSector_inv (ss : Nat) (hss : 0 < ss) (c : FatCache)
    (st spec : Nat → Nat) (so : Nat) (hso : so = so / ss * ss)
    (hinv : CacheInv ss c st spec)
    (hmiss : ∀ i < c.sectors.length, ∀ s, c.sectors.getD i none = some s →
      s.offset ≠ so) :
    CacheInv ss (c.loadSector st so).1 (c.loadSector st so).2.1 spec ∧
    (c.loadSector st so).2.2 = c.findLruSlot ∧
    (c.loadSector st so).1.sectors.getD c.findLruSlot none = some
      ⟨so,
       fun j => writebackSlot st (c.sectors.getD c.findLruSlot none) (so + j),
       c.sectorSize, false, (c.accessCounter + 1) % 2 ^ 32⟩ ∧
    (∀ j < ss, (c.loadSector st so).2.1 (so + j) = spec (so + j)) := by
  obtain ⟨hcs, hlen, hslots, hunc, hdist⟩ := hinv
  have hpos : 0 < c.sectors.length := by rw [hlen]; decide
  have hL : c.findLruSlot < c.sectors.length := findLruSlot_lt c hpos
  have hsec : (c.loadSector st so).1.sectors =
      c.sectors.set c.findLruSlot (some
        { offset := so,
          data := fun j =>
            writebackSlot st (c.sectors.getD c.findLruSlot none) (so + j),
          validLen := c.sectorSize,
          dirty := false,
          lastAccess := (c.accessCounter + 1) % 2 ^ 32 }) := rfl
  have hst1 : (c.loadSector st so).2.1 =
      writebackSlot st (c.sectors.getD c.findLruSlot none) := rfl
  -- storage after writeback agrees with the reference on the target range
  have htarget : ∀ a, so ≤ a → a < so + ss →
      writebackSlot st (c.sectors.getD c.findLruSlot none) a = spec a := by
    intro a ha ha'
    have huncov : ¬ Covers ss c.sectors a :=
      miss_target_uncovered ss hss c st spec so a hso
        ⟨hcs, hlen, hslots, hunc, hdist⟩ hmiss ha ha'
    have hout : writebackSlot st (c.sectors.getD c.findLruSlot none) a = st a := by
      cases hLs : c.sectors.getD c.findLruSlot none with
      | none => rfl
      | some sL =>
        have hokL := hslots c.findLruSlot hL sL hLs
        apply writebackSlot_out st sL a ss hokL.1
        intro hin
        exact huncov ⟨c.findLruSlot, hL, sL, hLs, hin.1, hin.2⟩
    rw [hout]
    exact hunc a huncov
  -- storage after writeback still agrees outside the evicted range
  have hkeep : ∀ a, (∀ sL, c.sectors.getD c.findLruSlot none = some sL →
      ¬ (sL.offset ≤ a ∧ a < sL.offset + ss)) →
      writebackSlot st (c.sectors.getD c.findLruSlot none) a = st a := by
    intro a hout
    cases hLs : c.sectors.getD c.findLruSlot none with
    | none => rfl
    | some sL =>
      have hokL := hslots c.findLruSlot hL sL hLs
      exact writebackSlot_out st sL a ss hokL.1 (hout sL hLs)
  -- storage after writeback agrees on the evicted range
  have hevict : ∀ a sL, c.sectors.getD c.findLruSlot none = some sL →
      sL.offset ≤ a → a < sL.offset + ss →
      writebackSlot st (c.sectors.getD c.findLruSlot none) a = spec a := by
    intro a sL hLs ha ha'
    rw [hLs]
    exact writebackSlot_in ss st spec sL a (hslots c.findLruSlot hL sL hLs) ha ha'
  refine ⟨⟨hcs, ?_, ?_, ?_, ?_⟩, rfl, ?_, ?_⟩
  · rw [hsec, length_set']
    exact hlen
  · -- every slot of the new cache is correct
    intro i hi s hs
    rw [hsec, length_set'] at hi
    rw [hsec] at hs
    by_cases hiL : i = c.findLruSlot
    · subst hiL
      rw [optGetD_set_self _ _ _ _ hL] at hs
      injection hs with hs'
      rw [← hs']
      refine ⟨hcs, hso, ?_, ?_⟩
      · intro j hj
        exact htarget (so + j) (by omega) (by omega)
      · intro _ j hj
        rw [hst1]
        exact htarget (so + j) (by omega) (by omega)
    · rw [optGetD_set_ne _ _ _ _ _ (fun hc => hiL hc.symm)] at hs
      have hok := hslots i hi s hs
      refine ⟨hok.1, hok.2.1, hok.2.2.1, ?_⟩
      intro hclean j hj
      rw [hst1]
      have hkj : writebackSlot st (c.sectors.getD c.findLruSlot none)
          (s.offset + j) = st (s.offset + j) := by
        apply hkeep
        intro sL hLs hin
        exact aligned_disjoint ss (s.offset + j) sL.offset s.offset hss
          (hslots c.findLruSlot hL sL hLs).2.1 hok.2.1
          (hdist c.findLruSlot hL i hi (fun hc => hiL hc.symm) sL s hLs hs)
          hin.1 hin.2 (by omega) (by omega)
      rw [hkj]
      exact hok.2.2.2 hclean j hj
  · -- uncovered addresses
    intro a hcov
    rw [hst1]
    rw [hsec] at hcov
    have hnotTarget : ¬ (so ≤ a ∧ a < so + ss) := by
      intro hin
      apply hcov
      refine ⟨c.findLruSlot, ?_, _, optGetD_set_self _ _ _ _ hL, hin.1, hin.2⟩
      rw [length_set']
      exact hL
    by_cases hinL : ∃ sL, c.sectors.getD c.findLruSlot none = some sL ∧
        sL.offset ≤ a ∧ a < sL.offset + ss
    · obtain ⟨sL, hLs, h1, h2⟩ := hinL
      exact hevict a sL hLs h1 h2
    · have hk : writebackSlot st (c.sectors.getD c.findLruSlot none) a = st a := by
        apply hkeep
        intro sL hLs hin
        exact hinL ⟨sL, hLs, hin.1, hin.2⟩
      rw [hk]
      apply hunc
      intro hcov'
      obtain ⟨i, hi, s, hsi, hr1, hr2⟩ := hcov'
      by_cases hiL : i = c.findLruSlot
      · subst hiL
        exact hinL ⟨s, hsi, hr1, hr2⟩
      · apply hcov
        refine ⟨i, ?_, s, ?_, hr1, hr2⟩
        · rw [length_set']; exact hi
        · rw [optGetD_set_ne _ _ _ _ _ (fun hc => hiL hc.symm)]
          exact hsi
  · -- distinct offsets
    intro i hi j hj hij si sj hsi hsj
    rw [hsec, length_set'] at hi hj
    rw [hsec] at hsi hsj
    by_cases hiL : i = c.findLruSlot
    · subst hiL
      rw [optGetD_set_self _ _ _ _ hL] at hsi
      injection hsi with hsi'
      rw [optGetD_set_ne _ _ _ _ _ hij] at hsj
      subst hsi'
      show so ≠ sj.offset
      exact (hmiss j hj sj hsj).symm
    · rw [optGetD_set_ne _ _ _ _ _ (fun hc => hiL hc.symm)] at hsi
      by_cases hjL : j = c.findLruSlot
      · subst hjL
        rw [optGetD_set_self _ _ _ _ hL] at hsj
        injection hsj with hsj'
        subst hsj'
        show si.offset ≠ so
        exact hmiss i hi si hsi
      · rw [optGetD_set_ne _ _ _ _ _ (fun hc => hjL hc.symm)] at hsj
        exact hdist i hi j hj hij si sj hsi hsj
  · -- the freshly installed slot
    rw [hsec]
    exact optGetD_set_self _ _ _ _ hL
  · -- the storage on the target range
    intro j hj
    rw [hst1]
    exact htarget (so + j) (by omega) (by omega)

theorem range_map_congr (n : Nat) (f g : Nat → Nat) (h : ∀ i < n, f i = g i) :
    (List.range n).map f = (List.range n).map g := by
  apply List.map_congr_left
  intro a ha
  exact h a (List.mem_range.mp ha)

theorem aligned_self (ss o : Nat) (hss : 0 < ss) :
    o / ss * ss = o / ss * ss / ss * ss := by
  rw [Nat.mul_div_cancel _ hss]

theorem sub_sectorOffset (ss off : Nat) : off - off / ss * ss = off % ss := by
  have hdm := Nat.div_add_mod off ss
  have h2 : off / ss * ss = ss * (off / ss) := Nat.mul_comm _ _
  omega

theorem sectorOffset_add_mod (ss off : Nat) : off / ss * ss + off % ss = off := by
  have hdm := Nat.div_add_mod off ss
  have h2 : off / ss * ss = ss * (off / ss) := Nat.mul_comm _ _
  omega

/-- The in-place sector mutation of `write_cached` keeps the invariant with
respect to the post-write reference bytes. -/
theorem updateSlotWrite_inv (ss : Nat) (hss : 0 < ss) (c : FatCache)
    (st spec : Nat → Nat) (idx : Nat) (s : CachedFatSector) (off : Nat)
    (bytes : List Nat) (hinv : CacheInv ss c st spec)
    (hidx : idx < c.sectors.length)
    (hslot : c.sectors.getD idx none = some s)
    (hsoff : s.offset = off / ss * ss)
    (hblen : off % ss + bytes.length ≤ ss) :
    CacheInv ss (c.updateSlotWrite idx (off % ss) bytes) st
      (storeWriteFn spec off bytes.length (fun j => bytes.getD j 0)) := by
  obtain ⟨hcs, hlen, hslots, hunc, hdist⟩ := hinv
  have hok := hslots idx hidx s hslot
  have hv : s.validLen = ss := hok.1
  have halign : s.offset = s.offset / ss * ss := by
    rw [hsoff]
    exact aligned_self ss off hss
  have hso_add : s.offset + off % ss = off := by
    rw [hsoff]
    exact sectorOffset_add_mod ss off
  have hspec' : ∀ a, storeWriteFn spec off bytes.length (fun j => bytes.getD j 0) a =
      if off ≤ a ∧ a < off + bytes.length then bytes.getD (a - off) 0 else spec a :=
    fun a => rfl
  have hspec_out : ∀ a, ¬ (off ≤ a ∧ a < off + bytes.length) →
      storeWriteFn spec off bytes.length (fun j => bytes.getD j 0) a = spec a := by
    intro a ha
    rw [hspec' a, if_neg ha]
  have hsec : (c.updateSlotWrite idx (off % ss) bytes).sectors =
      c.sectors.set idx (some
        { s with
          lastAccess := c.accessCounter,
          data := fun j =>
            if off % ss ≤ j ∧ j < off % ss + min bytes.length (s.validLen - off % ss)
            then bytes.getD (j - off % ss) 0
            else s.data j,
          dirty := true }) := by
    unfold FatCache.updateSlotWrite
    rw [hslot]
  have hmin : min bytes.length (s.validLen - off % ss) = bytes.length := by
    rw [hv]
    omega
  refine ⟨?_, ?_, ?_, ?_, ?_⟩
  · show (c.updateSlotWrite idx (off % ss) bytes).sectorSize = ss
    unfold FatCache.updateSlotWrite
    rw [hslot]
    exact hcs
  · rw [hsec, length_set']
    exact hlen
  · intro i hi t ht
    rw [hsec, length_set'] at hi
    rw [hsec] at ht
    by_cases hiI : i = idx
    · subst hiI
      rw [optGetD_set_self _ _ _ _ hidx] at ht
      injection ht with ht'
      subst ht'
      refine ⟨hv, halign, ?_, ?_⟩
      · intro j hj
        show (if off % ss ≤ j ∧ j < off % ss + min bytes.length (s.validLen - off % ss)
            then bytes.getD (j - off % ss) 0 else s.data j) =
          storeWriteFn spec off bytes.length (fun j => bytes.getD j 0) (s.offset + j)
        rw [hmin, hspec' (s.offset + j)]
        by_cases hw : off % ss ≤ j ∧ j < off % ss + bytes.length
        · rw [if_pos hw, if_pos (by omega)]
          congr 1
          omega
        · rw [if_neg hw, if_neg (by omega)]
          exact hok.2.2.1 j hj
      · intro hdf
        simp at hdf
    · rw [optGetD_set_ne _ _ _ _ _ (fun hc => hiI hc.symm)] at ht
      have hokt := hslots i hi t ht
      have hdisj : ∀ j < ss, ¬ (off ≤ t.offset + j ∧ t.offset + j < off + bytes.length) := by
        intro j hj hin
        exact aligned_disjoint ss (t.offset + j) t.offset s.offset hss
          hokt.2.1 halign (hdist i hi idx hidx hiI t s ht hslot)
          (by omega) (by omega) (by omega) (by omega)
      refine ⟨hokt.1, hokt.2.1, ?_, ?_⟩
      · intro j hj
        rw [hspec_out _ (hdisj j hj)]
        exact hokt.2.2.1 j hj
      · intro hclean j hj
        rw [hspec_out _ (hdisj j hj)]
        exact hokt.2.2.2 hclean j hj
  · intro a hcov
    rw [hsec] at hcov
    have hcov0 : ¬ Covers ss c.sectors a := by
      intro ⟨i, hi, t, hti, h1, h2⟩
      apply hcov
      by_cases hiI : i = idx
      · rw [hiI] at hti
        rw [hslot] at hti
        injection hti with hti'
        subst hti'
        exact ⟨idx, by rw [length_set']; exact hidx, _,
          optGetD_set_self _ _ _ _ hidx, h1, h2⟩
      · exact ⟨i, by rw [length_set']; exact hi, t,
          by rw [optGetD_set_ne _ _ _ _ _ (fun hc => hiI hc.symm)]; exact hti,
          h1, h2⟩
    have hout : ¬ (off ≤ a ∧ a < off + bytes.length) := by
      intro hin
      apply hcov
      refine ⟨idx, by rw [length_set']; exact hidx, _,
        optGetD_set_self _ _ _ _ hidx, ?_, ?_⟩
      · show s.offset ≤ a
        omega
      · show a < s.offset + ss
        omega
    rw [hspec_out _ hout]
    exact hunc a hcov0
  · intro i hi j hj hij si sj hsi hsj
    rw [hsec, length_set'] at hi hj
    rw [hsec] at hsi hsj
    by_cases hiI : i = idx
    · rw [hiI] at hsi hij
      rw [optGetD_set_self _ _ _ _ hidx] at hsi
      injection hsi with hsi'
      subst hsi'
      rw [optGetD_set_ne _ _ _ _ _ hij] at hsj
      show s.offset ≠ sj.offset
      exact hdist idx hidx j hj hij s sj hslot hsj
    · rw [optGetD_set_ne _ _ _ _ _ (fun hc => hiI hc.symm)] at hsi
      by_cases hjI : j = idx
      · rw [hjI] at hsj hij
        rw [optGetD_set_self _ _ _ _ hidx] at hsj
        injection hsj with hsj'
        subst hsj'
        show si.offset ≠ s.offset
        exact hdist i hi idx hidx hij si s hsi hslot
      · rw [optGetD_set_ne _ _ _ _ _ (fun hc => hjI hc.symm)] at hsj
        exact hdist i hi j hj hij si sj hsi hsj

/-- `read_cached` preserves the invariant and returns the reference bytes for
an access that stays inside one sector. -/
theorem readCached_sim (ss : Nat) (hss : 0 < ss) (c : FatCache)
    (st spec : Nat → Nat) (off len : Nat) (hlen : off % ss + len ≤ ss)
    (hinv : CacheInv ss c st spec) :
    CacheInv ss (c.readCached st off len).1 (c.readCached st off len).2.1 spec ∧
    (c.readCached st off len).2.2 = storeRead spec off len := by
  have hcs := hinv.1
  have hsoc : c.sectorOffset off = off / ss * ss := by
    unfold FatCache.sectorOffset
    rw [hcs]
  have hoffin : off - c.sectorOffset off = off % ss := by
    rw [hsoc]
    exact sub_sectorOffset ss off
  cases hfs : findSectorIdx c.sectors (c.sectorOffset off) with
  | some idx =>
    obtain ⟨hidx, s, hslot, hsoff⟩ := findSectorIdx_some _ _ _ hfs
    obtain ⟨hcs', hlen', hslots, hunc, hdist⟩ := hinv
    have hok := hslots idx hidx s hslot
    have hv : s.validLen = ss := hok.1
    simp only [FatCache.readCached, hfs, hslot]
    constructor
    · refine ⟨hcs', by rw [length_set']; exact hlen', ?_, ?_, ?_⟩
      · intro i hi t ht
        simp only [length_set'] at hi
        by_cases hiI : i = idx
        · rw [hiI] at ht
          rw [optGetD_set_self _ _ _ _ hidx] at ht
          injection ht with ht'
          subst ht'
          exact ⟨hok.1, hok.2.1, hok.2.2.1, hok.2.2.2⟩
        · rw [optGetD_set_ne _ _ _ _ _ (fun hc => hiI hc.symm)] at ht
          exact hslots i hi t ht
      · intro a hcov
        apply hunc a
        intro ⟨i, hi, t, hti, h1, h2⟩
        apply hcov
        by_cases hiI : i = idx
        · rw [hiI] at hti
          rw [hslot] at hti
          injection hti with hti'
          subst hti'
          exact ⟨idx, by rw [length_set']; exact hidx, _,
            optGetD_set_self _ _ _ _ hidx, h1, h2⟩
        · exact ⟨i, by rw [length_set']; exact hi, t,
            by rw [optGetD_set_ne _ _ _ _ _ (fun hc => hiI hc.symm)]; exact hti,
            h1, h2⟩
      · intro i hi j hj hij si sj hsi hsj
        simp only [length_set'] at hi hj
        by_cases hiI : i = idx
        · rw [hiI] at hsi hij
          rw [optGetD_set_self _ _ _ _ hidx] at hsi
          injection hsi with hsi'
          subst hsi'
          rw [optGetD_set_ne _ _ _ _ _ hij] at hsj
          show s.offset ≠ sj.offset
          exact hdist idx hidx j hj hij s sj hslot hsj
        · rw [optGetD_set_ne _ _ _ _ _ (fun hc => hiI hc.symm)] at hsi
          by_cases hjI : j = idx
          · rw [hjI] at hsj hij
            rw [optGetD_set_self _ _ _ _ hidx] at hsj
            injection hsj with hsj'
            subst hsj'
            show si.offset ≠ s.offset
            exact hdist i hi idx hidx hij si s hsi hslot
          · rw [optGetD_set_ne _ _ _ _ _ (fun hc => hjI hc.symm)] at hsj
            exact hdist i hi j hj hij si sj hsi hsj
    · show (List.range (min len (s.validLen - (off - c.sectorOffset off)))).map
          (fun i => s.data (off - c.sectorOffset off + i)) = storeRead spec off len
      rw [hoffin, hv]
      have hminlen : min len (ss - off % ss) = len := by omega
      rw [hminlen]
      unfold storeRead
      apply range_map_congr
      intro i hi
      have hdata := hok.2.2.1 (off % ss + i) (by omega)
      rw [hdata]
      congr 1
      have hadd : s.offset + off % ss = off := by
        rw [hsoff, hsoc]
        exact sectorOffset_add_mod ss off
      omega
  | none =>
    have hmiss := findSectorIdx_none _ _ hfs
    have halign : c.sectorOffset off = c.sectorOffset off / ss * ss := by
      rw [hsoc]
      exact aligned_self ss off hss
    have hLS := loadSector_inv ss hss c st spec (c.sectorOffset off) halign hinv
      (fun i hi s hs => hmiss i hi s hs)
    cases hload : c.loadSector st (c.sectorOffset off) with
    | mk c1 r =>
      cases r with
      | mk st1 i1 =>
        rw [hload] at hLS
        simp only [FatCache.readCached, hfs, hload]
        refine ⟨hLS.1, ?_⟩
        show (List.range (min len (c.sectorSize - (off - c.sectorOffset off)))).map
            (fun i => st1 (c.sectorOffset off + (off - c.sectorOffset off + i))) =
          storeRead spec off len
        rw [hoffin, hcs]
        have hminlen : min len (ss - off % ss) = len := by omega
        rw [hminlen]
        unfold storeRead
        apply range_map_congr
        intro i hi
        have hst : st1 (c.sectorOffset off + (off % ss + i)) =
            spec (c.sectorOffset off + (off % ss + i)) :=
          hLS.2.2.2 (off % ss + i) (by omega)
        rw [hst]
        congr 1
        rw [hsoc]
        have := sectorOffset_add_mod ss off
        omega

/-- `write_cached` preserves the invariant against the post-write reference
bytes for an access that stays inside one sector. -/
theorem writeCached_sim (ss : Nat) (hss : 0 < ss) (c : FatCache)
    (st spec : Nat → Nat) (off : Nat) (bytes : List Nat)
    (hblen : off % ss + bytes.length ≤ ss) (hinv : CacheInv ss c st spec) :
    CacheInv ss (c.writeCached st off bytes).1 (c.writeCached st off bytes).2
      (storeWriteFn spec off bytes.length (fun j => bytes.getD j 0)) := by
  have hcs := hinv.1
  have hsoc : c.sectorOffset off = off / ss * ss := by
    unfold FatCache.sectorOffset
    rw [hcs]
  have hoffin : off - c.sectorOffset off = off % ss := by
    rw [hsoc]
    exact sub_sectorOffset ss off
  cases hfs : findSectorIdx c.sectors (c.sectorOffset off) with
  | some idx =>
    obtain ⟨hidx, s, hslot, hsoff⟩ := findSectorIdx_some _ _ _ hfs
    simp only [FatCache.writeCached, hfs]
    rw [hoffin]
    have hinv' : CacheInv ss
        { c with accessCounter := (c.accessCounter + 1) % 2 ^ 32,
                 hits := (c.hits + 1) % 2 ^ 32 } st spec :=
      ⟨hinv.1, hinv.2.1, hinv.2.2.1, hinv.2.2.2.1, hinv.2.2.2.2⟩
    exact updateSlotWrite_inv ss hss _ st spec idx s off bytes hinv'
      hidx hslot (by rw [hsoff, hsoc]) hblen
  | none =>
    have hmiss := findSectorIdx_none _ _ hfs
    have halign : c.sectorOffset off = c.sectorOffset off / ss * ss := by
      rw [hsoc]
      exact aligned_self ss off hss
    have hLS := loadSector_inv ss hss c st spec (c.sectorOffset off) halign hinv
      (fun i hi s hs => hmiss i hi s hs)
    have hL : c.findLruSlot < c.sectors.length :=
      findLruSlot_lt c (by rw [hinv.2.1]; decide)
    cases hload : c.loadSector st (c.sectorOffset off) with
    | mk c1 r =>
      cases r with
      | mk st1 i1 =>
        rw [hload] at hLS
        have hi1 : i1 = c.findLruSlot := hLS.2.1
        simp only [FatCache.writeCached, hfs, hload]
        rw [hoffin, hi1]
        have hlen1 : c1.sectors.length = c.sectors.length := by
          rw [hLS.1.2.1, hinv.2.1]
        exact updateSlotWrite_inv ss hss c1 st1 spec c.findLruSlot _ off bytes
          hLS.1 (by rw [hlen1]; exact hL) hLS.2.2.1 (by rw [hsoc]) hblen

/-- One access preserves the invariant and produces the reference read
bytes. -/
theorem cacheStep_sim (ss : Nat) (hss : 0 < ss) (c : FatCache)
    (st spec : Nat → Nat) (op : CacheOp) (hop : op.inSector ss = true)
    (hinv : CacheInv ss c st spec) :
    CacheInv ss (applyCacheOp c st op).1 (applyCacheOp c st op).2.1
      (applySpecOp spec op).1 ∧
    (applyCacheOp c st op).2.2 = (applySpecOp spec op).2 := by
  cases op with
  | read off len =>
    have hlen : off % ss + len ≤ ss := by
      have := of_decide_eq_true hop
      exact this
    have hrc := readCached_sim ss hss c st spec off len hlen hinv
    cases hread : c.readCached st off len with
    | mk c1 r =>
      cases r with
      | mk st1 out =>
        rw [hread] at hrc
        simp only [applyCacheOp, hread, applySpecOp]
        have h2 : out = storeRead spec off len := hrc.2
        exact ⟨hrc.1, by rw [h2]⟩
  | write off bytes =>
    have hblen : off % ss + bytes.length ≤ ss := by
      have := of_decide_eq_true hop
      exact this
    have hwc := writeCached_sim ss hss c st spec off bytes hblen hinv
    cases hwrite : c.writeCached st off bytes with
    | mk c1 st1 =>
      rw [hwrite] at hwc
      simp only [applyCacheOp, hwrite, applySpecOp]
      exact ⟨hwc, by trivial⟩

/-- A whole trace of in-sector accesses preserves the invariant, and every
read returns exactly the reference bytes. -/
theorem execCache_sim (ss : Nat) (hss : 0 < ss) :
    ∀ (ops : List CacheOp) (c : FatCache) (st spec : Nat → Nat),
      (∀ op ∈ ops, op.inSector ss = true) → CacheInv ss c st spec →
      CacheInv ss (execCacheOps c st ops).1 (execCacheOps c st ops).2.1
        (execSpecOps spec ops).1 ∧
      (execCacheOps c st ops).2.2 = (execSpecOps spec ops).2 := by
  intro ops
  induction ops with
  | nil =>
    intro c st spec _ hinv
    exact ⟨hinv, rfl⟩
  | cons op rest ih =>
    intro c st spec hops hinv
    have hstep := cacheStep_sim ss hss c st spec op
      (hops op (List.mem_cons_self op rest)) hinv
    cases happ : applyCacheOp c st op with
    | mk c1 r =>
      cases r with
      | mk st1 out =>
        cases hsapp : applySpecOp spec op with
        | mk spec1 sout =>
          rw [happ, hsapp] at hstep
          have hrest := ih c1 st1 spec1
            (fun o ho => hops o (List.mem_cons_of_mem _ ho)) hstep.1
          cases hexec : execCacheOps c1 st1 rest with
          | mk c2 r2 =>
            cases r2 with
            | mk st2 outs =>
              cases hsexec : execSpecOps spec1 rest with
              | mk spec2 souts =>
                rw [hexec, hsexec] at hrest
                simp only [execCacheOps, happ, hexec, execSpecOps, hsapp, hsexec]
                refine ⟨hrest.1, ?_⟩
                have h1 : out = sout := hstep.2
                have h2 : outs = souts := hrest.2
                rw [h1, h2]

/-- After the flush loop the storage agrees with the reference bytes
everywhere. -/
theorem flushGo_eq_spec (ss : Nat) :
    ∀ (l : List (Option CachedFatSector)) (st spec : Nat → Nat),
      (∀ i < l.length, ∀ s, l.getD i none = some s →
        s.validLen = ss ∧ (∀ j < ss, s.data j = spec (s.offset + j)) ∧
        (s.dirty = false → ∀ j < ss, st (s.offset + j) = spec (s.offset + j))) →
      (∀ a, ¬ Covers ss l a → st a = spec a) →
      ∀ a, (flushGo l st).2 a = spec a := by
  intro l
  induction l with
  | nil =>
    intro st spec _ hunc a
    apply hunc a
    intro ⟨i, hi, _⟩
    simp at hi
  | cons x rest ih =>
    intro st spec hslots hunc a
    have hshift : ∀ i < rest.length, ∀ s, rest.getD i none = some s →
        s.validLen = ss ∧ (∀ j < ss, s.data j = spec (s.offset + j)) ∧
        (s.dirty = false → ∀ j < ss, st (s.offset + j) = spec (s.offset + j)) := by
      intro i hi s hs
      refine hslots (i + 1) (by simp only [List.length_cons]; omega) s ?_
      rw [List.getD_cons_succ]
      exact hs
    cases x with
    | none =>
      cases hfg : flushGo rest st with
      | mk l2 st2 =>
        have hred : (flushGo (none :: rest) st).2 = st2 := by
          simp only [flushGo, hfg]
        rw [hred]
        have := ih st spec hshift ?_ a
        · rw [hfg] at this
          exact this
        · intro a' hcov
          apply hunc a'
          intro ⟨i, hi, s, hsi, h1, h2⟩
          cases i with
          | zero =>
            rw [List.getD_cons_zero] at hsi
            exact Option.noConfusion hsi
          | succ n =>
            rw [List.getD_cons_succ] at hsi
            exact hcov ⟨n, by simp only [List.length_cons] at hi; omega, s, hsi, h1, h2⟩
    | some s =>
      have hs0 := hslots 0 (by simp) s (by rw [List.getD_cons_zero])
      cases hd : s.dirty with
      | true =>
        have hst1 : ∀ a', storeWriteFn st s.offset s.validLen s.data a' =
            if s.offset ≤ a' ∧ a' < s.offset + ss then spec a' else st a' := by
          intro a'
          unfold storeWriteFn
          rw [hs0.1]
          by_cases hin : s.offset ≤ a' ∧ a' < s.offset + ss
          · rw [if_pos hin, if_pos hin]
            have := hs0.2.1 (a' - s.offset) (by omega)
            rw [this]
            congr 1
            omega
          · rw [if_neg hin, if_neg hin]
        cases hfg : flushGo rest (storeWriteFn st s.offset s.validLen s.data) with
        | mk l2 st2 =>
          have hred : (flushGo (some s :: rest) st).2 = st2 := by
            simp only [flushGo, hd, hfg]
            rfl
          rw [hred]
          have := ih (storeWriteFn st s.offset s.validLen s.data) spec ?_ ?_ a
          · rw [hfg] at this
            exact this
          · intro i hi t ht
            have h1 := hshift i hi t ht
            refine ⟨h1.1, h1.2.1, ?_⟩
            intro hclean j hj
            rw [hst1]
            by_cases hin : s.offset ≤ t.offset + j ∧ t.offset + j < s.offset + ss
            · rw [if_pos hin]
            · rw [if_neg hin]
              exact h1.2.2 hclean j hj
          · intro a' hcov
            rw [hst1]
            by_cases hin : s.offset ≤ a' ∧ a' < s.offset + ss
            · rw [if_pos hin]
            · rw [if_neg hin]
              apply hunc a'
              intro ⟨i, hi, t, hti, h1, h2⟩
              cases i with
              | zero =>
                rw [List.getD_cons_zero] at hti
                injection hti with hti'
                subst hti'
                exact hin ⟨h1, h2⟩
              | succ n =>
                rw [List.getD_cons_succ] at hti
                exact hcov ⟨n, by simp only [List.length_cons] at hi; omega, t, hti, h1, h2⟩
      | false =>
        cases hfg : flushGo rest st with
        | mk l2 st2 =>
          have hred : (flushGo (some s :: rest) st).2 = st2 := by
            simp only [flushGo, hd, hfg]
            rfl
          rw [hred]
          have := ih st spec hshift ?_ a
          · rw [hfg] at this
            exact this
          · intro a' hcov
            by_cases hin : s.offset ≤ a' ∧ a' < s.offset + ss
            · have := hs0.2.2 hd (a' - s.offset) (by omega)
              have harw : s.offset + (a' - s.offset) = a' := by omega
              rw [harw] at this
              exact this
            · apply hunc a'
              intro ⟨i, hi, t, hti, h1, h2⟩
              cases i with
              | zero =>
                rw [List.getD_cons_zero] at hti
                injection hti with hti'
                subst hti'
                exact hin ⟨h1, h2⟩
              | succ n =>
                rw [List.getD_cons_succ] at hti
                exact hcov ⟨n, by simp only [List.length_cons] at hi; omega, t, hti, h1, h2⟩

/-- The invariant holds initially: fresh cache, storage as its own
reference. -/
theorem cacheInv_new (ss : Nat) (st : Nat → Nat) :
    CacheInv ss (FatCache.new ss) st st := by
  refine ⟨rfl, by simp [FatCache.new], ?_, ?_, ?_⟩
  · intro i hi s hs
    rw [show (FatCache.new ss).sectors = List.replicate FAT_CACHE_SECTORS none
      from rfl] at hs
    rw [optGetD_replicate] at hs
    exact Option.noConfusion hs
  · intro a _
    rfl
  · intro i hi j hj hij si sj hsi hsj
    rw [show (FatCache.new ss).sectors = List.replicate FAT_CACHE_SECTORS none
      from rfl] at hsi
    rw [optGetD_replicate] at hsi
    exact Option.noConfusion hsi

/-- C2: with an ideal storage device (full-count transfers), the FAT sector
cache is transparent for accesses that stay inside one sector: after any
sequence of `read_cached`/`write_cached` calls followed by `flush`, the
backing storage holds exactly the bytes direct writes would have produced,
and every `read_cached` call returns the bytes most recently written at its
offsets. (Accesses crossing a sector boundary are silently truncated to the
first sector, so the unrestricted claim fails.) -/
theorem fat_cache_transparent (ss : Nat) (hss : 0 < ss) (st : Nat → Nat)
    (ops : List CacheOp) (hops : ∀ op ∈ ops, op.inSector ss = true) :
    (∀ a, ((execCacheOps (FatCache.new ss) st ops).1.flush
        (execCacheOps (FatCache.new ss) st ops).2.1).2 a =
      (execSpecOps st ops).1 a) ∧
    (execCacheOps (FatCache.new ss) st ops).2.2 = (execSpecOps st ops).2 := by
  have hsim := execCache_sim ss hss ops (FatCache.new ss) st st hops
    (cacheInv_new ss st)
  refine ⟨?_, hsim.2⟩
  intro a
  obtain ⟨hcs, hlen, hslots, hunc, hdist⟩ := hsim.1
  cases hfg : flushGo (execCacheOps (FatCache.new ss) st ops).1.sectors
      (execCacheOps (FatCache.new ss) st ops).2.1 with
  | mk l2 st2 =>
    have hred : ((execCacheOps (FatCache.new ss) st ops).1.flush
        (execCacheOps (FatCache.new ss) st ops).2.1).2 = st2 := by
      unfold FatCache.flush
      rw [hfg]
    rw [hred]
    have hfl := flushGo_eq_spec ss (execCacheOps (FatCache.new ss) st ops).1.sectors
      (execCacheOps (FatCache.new ss) st ops).2.1 (execSpecOps st ops).1
      ?_ hunc a
    · rw [hfg] at hfl
      exact hfl
    · intro i hi s hs
      have hok := hslots i hi s hs
      exact ⟨hok.1, hok.2.2.1, hok.2.2.2⟩

/-- Witness for C2: sector size 2, identity storage; writing byte 7 at offset
0 then reading it back: after flush the storage holds the direct-write bytes
(checked at address 1) and the read returned the written byte. -/
theorem fat_cache_transparent_witness :
    (((execCacheOps (FatCache.new 2) (fun a => a)
        [CacheOp.write 0 [7], CacheOp.read 0 1]).1.flush
        (execCacheOps (FatCache.new 2) (fun a => a)
          [CacheOp.write 0 [7], CacheOp.read 0 1]).2.1).2 1 =
      (execSpecOps (fun a => a) [CacheOp.write 0 [7], CacheOp.read 0 1]).1 1) ∧
    (execCacheOps (FatCache.new 2) (fun a => a)
        [CacheOp.write 0 [7], CacheOp.read 0 1]).2.2 =
      (execSpecOps (fun a => a) [CacheOp.write 0 [7], CacheOp.read 0 1]).2 :=
  ⟨(fat_cache_transparent 2 (by decide) (fun a => a)
      [CacheOp.write 0 [7], CacheOp.read 0 1] (by decide)).1 1,
   (fat_cache_transparent 2 (by decide) (fun a => a)
      [CacheOp.write 0 [7], CacheOp.read 0 1] (by decide)).2⟩

/-- Counterexample to C2 as stated: sector size 2, identity storage; a
2-byte write at offset 1 crosses the sector boundary. `write_cached` copies
only `min(buf.len, valid_len − offset_in_sector) = 1` byte, so after flush
the storage at address 2 still holds its old byte 2, while applying the
write directly would store 9 there. -/
theorem fat_cache_cross_sector_cex :
    ((execCacheOps (FatCache.new 2) (fun a => a)
        [CacheOp.write 1 [9, 9]]).1.flush
        (execCacheOps (FatCache.new 2) (fun a => a)
          [CacheOp.write 1 [9, 9]]).2.1).2 2 = 2 ∧
    (execSpecOps (fun a => a) [CacheOp.write 1 [9, 9]]).1 2 = 9 ∧
    CacheOp.inSector 2 (CacheOp.write 1 [9, 9]) = false :=
  ⟨rfl, rfl, rfl⟩

end Fatrs
